import Mathlib

/-!
Verification of the vibe-control agent backend against its specification.

The development shallowly embeds the TypeScript sources:
  * `src/web/lib/mcp-tools.ts` — approval registry (`requestApproval`,
    `grantApproval`, `runTerminal`) and the workspace inspector
    (`buildDirectoryTree`, `workspaceList`, `workspaceRead`).
  * `src/web/app/api/agent/route.ts` — the path sandbox
    (`resolveWorkspacePath`, `isOutsideWorkspace`), the tool dispatcher
    (`handleToolCall`) and the bounded orchestration loop in `POST`.

JavaScript `Map`s become association lists (iteration order is never
observed by the code under verification), `Date.now()` becomes an explicit
`now : Nat` argument (milliseconds), `crypto` randomness becomes explicit
fresh-name arguments or a counter, and the filesystem / subprocess / model
backends become explicit oracle functions.  Node `path` functions
(`resolve`, `normalize`, `relative`, `isAbsolute`) are embedded with their
POSIX semantics, which is how the server runs them.
-/

namespace VibeControl

/-! ## Association lists standing in for JavaScript `Map`s -/

def lookupA {α : Type} : List (String × α) → String → Option α
  | [], _ => none
  | (k1, v) :: rest, k => if k1 = k then some v else lookupA rest k

/-- Models `Map.delete` (removes the binding for the key). -/
def eraseA {α : Type} : List (String × α) → String → List (String × α)
  | [], _ => []
  | (k1, v) :: rest, k => if k1 = k then eraseA rest k else (k1, v) :: eraseA rest k

/-- Models `Map.set`; faithful up to iteration order, which the code never observes. -/
def insertA {α : Type} (l : List (String × α)) (k : String) (v : α) : List (String × α) :=
  (k, v) :: eraseA l k

theorem lookupA_eraseA_self {α : Type} (l : List (String × α)) (k : String) :
    lookupA (eraseA l k) k = none := by
  induction l with
  | nil => rfl
  | cons p rest ih =>
    by_cases h : p.1 = k
    · simpa [eraseA, h] using ih
    · simpa [eraseA, lookupA, h] using ih

theorem lookupA_eraseA_ne {α : Type} (l : List (String × α)) (k k2 : String) (h : k2 ≠ k) :
    lookupA (eraseA l k) k2 = lookupA l k2 := by
  induction l with
  | nil => rfl
  | cons p rest ih =>
    have hkk2 : ¬ k = k2 := fun hh => h hh.symm
    by_cases hp : p.1 = k
    · simpa [eraseA, hp, lookupA, hkk2] using ih
    · by_cases hk2 : p.1 = k2
      · simp [eraseA, hp, lookupA, hk2, h]
      · simpa [eraseA, hp, lookupA, hk2] using ih

theorem lookupA_insertA_self {α : Type} (l : List (String × α)) (k : String) (v : α) :
    lookupA (insertA l k v) k = some v := by
  simp [insertA, lookupA]

theorem lookupA_insertA_ne {α : Type} (l : List (String × α)) (k k2 : String) (v : α)
    (h : k2 ≠ k) : lookupA (insertA l k v) k2 = lookupA l k2 := by
  have hne : ¬ k = k2 := fun hk => h hk.symm
  simp [insertA, lookupA, hne, lookupA_eraseA_ne l k k2 h]

/-! ## JSON-ish values for the object literals the tools return -/

inductive JValue where
  | str (s : String)
  | num (n : Int)
  | bool (b : Bool)
  | null
  | arr (xs : List JValue)
  | obj (fields : List (String × JValue))

/-! ## Approval registry (`src/web/lib/mcp-tools.ts`)

`pendingApprovals` and `activeTokens` are the two module-level `Map`s.
`generateRequestId` / `generateToken` draw random names; here fresh names
are explicit arguments. -/

structure PendingApproval where
  action : String
  reason : String
  command : String
  timestamp : Nat
deriving DecidableEq

structure ActiveToken where
  requestId : String
  command : String
  expires : Nat
deriving DecidableEq

structure RegState where
  pendingApprovals : List (String × PendingApproval)
  activeTokens : List (String × ActiveToken)
deriving DecidableEq

/-- Embeds `requestApproval` (mcp-tools.ts:83-98).  The 5-minute `setTimeout`
auto-expiry is asynchronous wall-clock behaviour and is not part of this
synchronous embedding. -/
def requestApproval (action reason command : String) (freshId : String) (now : Nat)
    (s : RegState) : RegState × List (String × JValue) :=
  ({ s with pendingApprovals :=
      insertA s.pendingApprovals freshId ⟨action, reason, command, now⟩ },
   [("status", .str "pending"), ("request_id", .str freshId)])

def invalidRequestMsg : String := "Invalid or expired approval request"

/-- Embeds `grantApproval` (mcp-tools.ts:100-119): look up the pending approval
(else throw), mint a token bound to the pending command, expiring 60 s
from now, delete the pending approval, return status and token. -/
def grantApproval (requestId : String) (freshTok : String) (now : Nat)
    (s : RegState) : RegState × Except String (List (String × JValue)) :=
  match lookupA s.pendingApprovals requestId with
  | none => (s, .error invalidRequestMsg)
  | some pending =>
    let s1 : RegState :=
      { s with
        activeTokens := insertA s.activeTokens freshTok
          ⟨requestId, pending.command, now + 60 * 1000⟩,
        pendingApprovals := eraseA s.pendingApprovals requestId }
    (s1, .ok [("status", .str "granted"), ("approval_token", .str freshTok)])

def invalidTokenMsg : String := "⛔ PERMISSION DENIED: Invalid approval token"

def expiredTokenMsg : String := "⛔ PERMISSION DENIED: Approval token expired"

/-- Outcome of a `runTerminal` call: either a thrown `Error` with its
message, or an invocation of `execSync` recording exactly which command
string and working directory were passed to the process-execution
capability. -/
inductive RunResult where
  | err (msg : String)
  | exec (command : String) (workDir : String)
deriving DecidableEq

/-- Models `cwd || process.cwd()` — a missing or empty (falsy) `cwd` argument
falls back to the process working directory. -/
def workDirOf (cwd : Option String) (processCwd : String) : String :=
  match cwd with
  | some c => if c = "" then processCwd else c
  | none => processCwd

/-- Embeds `runTerminal` (mcp-tools.ts:121-142): look up the token (else throw
"Invalid approval token"); if past expiry delete it and throw "Approval
token expired"; otherwise delete it (one-time use) and call
`execSync(command, { cwd: cwd || process.cwd(), ... })`.  Note the code
passes its own `command` argument to `execSync`, not `tokenData.command`. -/
def runTerminal (command approvalToken : String) (cwd : Option String) (now : Nat)
    (processCwd : String) (s : RegState) : RegState × RunResult :=
  match lookupA s.activeTokens approvalToken with
  | none => (s, .err invalidTokenMsg)
  | some tokenData =>
    if tokenData.expires < now then
      ({ s with activeTokens := eraseA s.activeTokens approvalToken },
       .err expiredTokenMsg)
    else
      ({ s with activeTokens := eraseA s.activeTokens approvalToken },
       .exec command (workDirOf cwd processCwd))

/-! ### Trace semantics for sequences of registry operations -/

inductive RegOp where
  | request (action reason command freshId : String) (now : Nat)
  | grant (requestId freshTok : String) (now : Nat)
  | run (command token : String) (cwd : Option String) (now : Nat) (processCwd : String)
deriving DecidableEq

inductive StepOut where
  | requested (resp : List (String × JValue))
  | granted (r : Except String (List (String × JValue)))
  | ran (r : RunResult)

def stepOp (s : RegState) : RegOp → RegState × StepOut
  | .request action reason command freshId now =>
    let (s1, r) := requestApproval action reason command freshId now s
    (s1, .requested r)
  | .grant requestId freshTok now =>
    let (s1, r) := grantApproval requestId freshTok now s
    (s1, .granted r)
  | .run command token cwd now processCwd =>
    let (s1, r) := runTerminal command token cwd now processCwd s
    (s1, .ran r)

def runOps (s : RegState) : List RegOp → List (RegOp × StepOut)
  | [] => []
  | op :: rest =>
    let (s1, out) := stepOp s op
    (op, out) :: runOps s1 rest

/-- Does this trace entry record a successful execution consuming token `t`? -/
def isExecOfToken (t : String) : RegOp × StepOut → Bool
  | (.run _ tok _ _ _, .ran (.exec _ _)) => tok = t
  | _ => false

def countExecs (t : String) (trace : List (RegOp × StepOut)) : Nat :=
  (trace.filter (isExecOfToken t)).length

/-- Is token `t` currently present in the active-token map? -/
def hasTok (s : RegState) (t : String) : Bool := (lookupA s.activeTokens t).isSome

theorem countExecs_cons (t : String) (e : RegOp × StepOut) (tr : List (RegOp × StepOut)) :
    countExecs t (e :: tr)
      = (if isExecOfToken t e = true then 1 else 0) + countExecs t tr := by
  by_cases h : isExecOfToken t e = true
  · simp [countExecs, List.filter_cons, h, Nat.add_comm]
  · simp [countExecs, List.filter_cons, h]

theorem countExecs_bound (t : String) : ∀ (ops : List RegOp) (s : RegState),
    (∀ rid tk n, RegOp.grant rid tk n ∈ ops → tk ≠ t) →
    countExecs t (runOps s ops) ≤ (if hasTok s t then 1 else 0) := by
  intro ops
  induction ops with
  | nil => intro s _; simp [runOps, countExecs]
  | cons op rest ih =>
    intro s h
    have hrest : ∀ rid tk n, RegOp.grant rid tk n ∈ rest → tk ≠ t :=
      fun rid tk n hm => h rid tk n (List.mem_cons_of_mem _ hm)
    cases op with
    | request a r c fid n =>
      have hs : runOps s (.request a r c fid n :: rest)
          = ((.request a r c fid n), .requested
              [("status", .str "pending"), ("request_id", .str fid)])
            :: runOps ⟨insertA s.pendingApprovals fid ⟨a, r, c, n⟩, s.activeTokens⟩ rest := rfl
      rw [hs, countExecs_cons]
      have hflag : isExecOfToken t ((RegOp.request a r c fid n), .requested
          [("status", .str "pending"), ("request_id", .str fid)]) = false := rfl
      rw [hflag]
      simpa [hasTok] using ih _ hrest
    | grant rid tk n =>
      have htk : tk ≠ t := h rid tk n (List.mem_cons_self _ _)
      cases hl : lookupA s.pendingApprovals rid with
      | none =>
        have hs : runOps s (.grant rid tk n :: rest)
            = ((.grant rid tk n), .granted (.error invalidRequestMsg)) :: runOps s rest := by
          simp [runOps, stepOp, grantApproval, hl]
        rw [hs, countExecs_cons]
        have hflag : isExecOfToken t ((RegOp.grant rid tk n),
            .granted (.error invalidRequestMsg)) = false := rfl
        rw [hflag]
        simpa using ih s hrest
      | some pending =>
        have hs : runOps s (.grant rid tk n :: rest)
            = ((.grant rid tk n), .granted (.ok
                [("status", .str "granted"), ("approval_token", .str tk)]))
              :: runOps
                ⟨eraseA s.pendingApprovals rid,
                 insertA s.activeTokens tk ⟨rid, pending.command, n + 60 * 1000⟩⟩ rest := by
          simp [runOps, stepOp, grantApproval, hl]
        rw [hs, countExecs_cons]
        have hflag : isExecOfToken t ((RegOp.grant rid tk n), .granted (.ok
            [("status", .str "granted"), ("approval_token", .str tk)])) = false := rfl
        rw [hflag]
        have hpres : hasTok ⟨eraseA s.pendingApprovals rid,
            insertA s.activeTokens tk ⟨rid, pending.command, n + 60 * 1000⟩⟩ t = hasTok s t := by
          simp [hasTok, lookupA_insertA_ne _ tk t _ (Ne.symm htk)]
        have hrec := ih (⟨eraseA s.pendingApprovals rid,
          insertA s.activeTokens tk ⟨rid, pending.command, n + 60 * 1000⟩⟩ : RegState) hrest
        rw [hpres] at hrec
        simpa using hrec
    | run c tok cwd n pcwd =>
      cases hl : lookupA s.activeTokens tok with
      | none =>
        have hs : runOps s (.run c tok cwd n pcwd :: rest)
            = ((.run c tok cwd n pcwd), .ran (.err invalidTokenMsg)) :: runOps s rest := by
          simp [runOps, stepOp, runTerminal, hl]
        rw [hs, countExecs_cons]
        have hflag : isExecOfToken t ((RegOp.run c tok cwd n pcwd),
            .ran (.err invalidTokenMsg)) = false := rfl
        rw [hflag]
        simpa using ih s hrest
      | some td =>
        by_cases hexp : td.expires < n
        · have hs : runOps s (.run c tok cwd n pcwd :: rest)
              = ((.run c tok cwd n pcwd), .ran (.err expiredTokenMsg))
                :: runOps (⟨s.pendingApprovals, eraseA s.activeTokens tok⟩ : RegState) rest := by
            simp [runOps, stepOp, runTerminal, hl, hexp]
          rw [hs, countExecs_cons]
          have hflag : isExecOfToken t ((RegOp.run c tok cwd n pcwd),
              .ran (.err expiredTokenMsg)) = false := rfl
          rw [hflag]
          have hrec := ih (⟨s.pendingApprovals, eraseA s.activeTokens tok⟩ : RegState) hrest
          by_cases htok : tok = t
          · have h0 : hasTok (⟨s.pendingApprovals, eraseA s.activeTokens tok⟩ : RegState) t
                = false := by
              rw [← htok]; simp [hasTok, lookupA_eraseA_self]
            rw [h0] at hrec
            simp at hrec
            simp [hrec]
          · have hpres : hasTok (⟨s.pendingApprovals, eraseA s.activeTokens tok⟩ : RegState) t
                = hasTok s t := by
              simp [hasTok, lookupA_eraseA_ne _ tok t (fun hh => htok hh.symm)]
            rw [hpres] at hrec
            simpa using hrec
        · have hs : runOps s (.run c tok cwd n pcwd :: rest)
              = ((.run c tok cwd n pcwd), .ran (.exec c (workDirOf cwd pcwd)))
                :: runOps (⟨s.pendingApprovals, eraseA s.activeTokens tok⟩ : RegState) rest := by
            simp [runOps, stepOp, runTerminal, hl, hexp]
          rw [hs, countExecs_cons]
          have hrec := ih (⟨s.pendingApprovals, eraseA s.activeTokens tok⟩ : RegState) hrest
          by_cases htok : tok = t
          · have hflag : isExecOfToken t ((RegOp.run c tok cwd n pcwd),
                .ran (.exec c (workDirOf cwd pcwd))) = true := by
              simp [isExecOfToken, htok]
            rw [hflag]
            have hhas : hasTok s t = true := by
              rw [← htok]; simp [hasTok, hl]
            rw [hhas]
            have h0 : hasTok (⟨s.pendingApprovals, eraseA s.activeTokens tok⟩ : RegState) t
                = false := by
              rw [← htok]; simp [hasTok, lookupA_eraseA_self]
            rw [h0] at hrec
            simp at hrec
            simp [hrec]
          · have hflag : isExecOfToken t ((RegOp.run c tok cwd n pcwd),
                .ran (.exec c (workDirOf cwd pcwd))) = false := by
              simp [isExecOfToken, htok]
            rw [hflag]
            have hpres : hasTok (⟨s.pendingApprovals, eraseA s.activeTokens tok⟩ : RegState) t
                = hasTok s t := by
              simp [hasTok, lookupA_eraseA_ne _ tok t (fun hh => htok hh.symm)]
            rw [hpres] at hrec
            simpa using hrec

/-- Claim C1 (code bug): `runTerminal` passes its own `command` argument to
`execSync`, not the command bound to the token at grant time.  Here the
token `tok_1` was granted for `npm test`, yet calling the executor with
`rm -rf /tmp/x` makes the process-execution capability run `rm -rf /tmp/x`. -/
theorem runTerminal_executes_caller_argument :
    runTerminal "rm -rf /tmp/x" "tok_1" none 500000 "/ws"
        ⟨[], [("tok_1", ⟨"req_1", "npm test", 1000000⟩)]⟩
      = (⟨[], []⟩, .exec "rm -rf /tmp/x" "/ws")
    ∧ "rm -rf /tmp/x" ≠ "npm test" := by
  constructor
  · rfl
  · decide

/-- Claim C2: validation-and-consumption succeeds at most once per token.
(1) In any sequence of registry operations in which no grant mints the
token string `t` anew, at most one `runTerminal` call with `t` reaches
`execSync`.  (2) After any `runTerminal` call with `t`, the token is gone
from the active map.  (3) On any state in which `t` is absent, every
`runTerminal` call with `t` fails with the PermissionDenied
"Invalid approval token" error, leaves the state unchanged, and executes
nothing. -/
theorem runTerminal_single_use (s : RegState) (t : String) :
    (∀ (ops : List RegOp), (∀ rid tk n, RegOp.grant rid tk n ∈ ops → tk ≠ t) →
       countExecs t (runOps s ops) ≤ 1)
    ∧ (∀ (c : String) (w : Option String) (n : Nat) (d : String),
       lookupA ((runTerminal c t w n d s).1).activeTokens t = none)
    ∧ (∀ (s2 : RegState), lookupA s2.activeTokens t = none →
       ∀ (c : String) (w : Option String) (n : Nat) (d : String),
         runTerminal c t w n d s2 = (s2, .err invalidTokenMsg)) := by
  refine ⟨?_, ?_, ?_⟩
  · intro ops hops
    have h := countExecs_bound t ops s hops
    by_cases hh : hasTok s t = true
    · rw [hh] at h; simpa using h
    · rw [Bool.not_eq_true] at hh; rw [hh] at h; simp at h; omega
  · intro c w n d
    cases hl : lookupA s.activeTokens t with
    | none => simp [runTerminal, hl]
    | some td =>
      by_cases hexp : td.expires < n
      · simp [runTerminal, hl, hexp, lookupA_eraseA_self]
      · simp [runTerminal, hl, hexp, lookupA_eraseA_self]
  · intro s2 habs c w n d
    simp [runTerminal, habs]

/-- Witness for C2 at a concrete state and operation sequence: two
back-to-back `runTerminal` calls with the same token produce at most one
execution. -/
theorem runTerminal_single_use_witness :
    countExecs "tok_1"
      (runOps ⟨[], [("tok_1", ⟨"req_1", "npm test", 5000⟩)]⟩
        [.run "npm test" "tok_1" none 1000 "/ws",
         .run "npm test" "tok_1" none 1000 "/ws"]) ≤ 1 := by
  refine (runTerminal_single_use ⟨[], [("tok_1", ⟨"req_1", "npm test", 5000⟩)]⟩ "tok_1").1 _ ?_
  intro rid tk n hm
  simp [List.mem_cons] at hm

/-- Claim C3: a token present in the map whose expiry is in the past makes
`runTerminal` fail with the expired-specific PermissionDenied message
(distinct from the unknown/reused-token message), execute nothing, and
delete the token from the map as a side effect of the failed check. -/
theorem runTerminal_expired_token (s : RegState) (t : String) (td : ActiveToken)
    (c : String) (w : Option String) (n : Nat) (d : String)
    (hfind : lookupA s.activeTokens t = some td) (hexp : td.expires < n) :
    runTerminal c t w n d s
      = ((⟨s.pendingApprovals, eraseA s.activeTokens t⟩ : RegState), .err expiredTokenMsg)
    ∧ lookupA (eraseA s.activeTokens t) t = none
    ∧ expiredTokenMsg ≠ invalidTokenMsg := by
  refine ⟨?_, lookupA_eraseA_self _ _, by decide⟩
  simp [runTerminal, hfind, hexp]

/-- Witness for C3: a concrete expired token is rejected with the expired
message and no execution. -/
theorem runTerminal_expired_token_witness :
    (runTerminal "npm test" "tok_1" none 2000000 "/ws"
        ⟨[], [("tok_1", ⟨"req_1", "npm test", 1000000⟩)]⟩).2
      = .err expiredTokenMsg := by
  have h := runTerminal_expired_token
    ⟨[], [("tok_1", ⟨"req_1", "npm test", 1000000⟩)]⟩ "tok_1"
    ⟨"req_1", "npm test", 1000000⟩ "npm test" none 2000000 "/ws" rfl (by decide)
  rw [h.1]

/-- Claim C4: a grant succeeds at most once per request id.  A successful
grant returns the token, binds it to the pending command with a 60-second
expiry, deletes the pending approval, and any second grant on the same id
fails with the invalid-or-expired-request error leaving the state
unchanged (no token minted). -/
theorem grantApproval_at_most_once (s : RegState) (rid : String) (p : PendingApproval)
    (tok : String) (now : Nat)
    (hfind : lookupA s.pendingApprovals rid = some p) :
    (grantApproval rid tok now s).2
        = .ok [("status", .str "granted"), ("approval_token", .str tok)]
    ∧ lookupA (grantApproval rid tok now s).1.activeTokens tok
        = some ⟨rid, p.command, now + 60 * 1000⟩
    ∧ lookupA (grantApproval rid tok now s).1.pendingApprovals rid = none
    ∧ ∀ (tok2 : String) (now2 : Nat),
        grantApproval rid tok2 now2 (grantApproval rid tok now s).1
          = ((grantApproval rid tok now s).1, .error invalidRequestMsg) := by
  refine ⟨?_, ?_, ?_, ?_⟩
  · simp [grantApproval, hfind]
  · simp [grantApproval, hfind, lookupA_insertA_self]
  · simp [grantApproval, hfind, lookupA_eraseA_self]
  · intro tok2 now2
    have h2 : lookupA (grantApproval rid tok now s).1.pendingApprovals rid = none := by
      simp [grantApproval, hfind, lookupA_eraseA_self]
    simp [grantApproval, hfind] at h2 ⊢
    simp [grantApproval, h2]

/-- Witness for C4: granting a concrete request twice; the second grant
fails with the invalid-or-expired-request error. -/
theorem grantApproval_at_most_once_witness :
    grantApproval "req_1" "tok_2" 7000
        (grantApproval "req_1" "tok_1" 5000
          ⟨[("req_1", ⟨"terminal_run", "run tests", "npm test", 0⟩)], []⟩).1
      = ((grantApproval "req_1" "tok_1" 5000
          ⟨[("req_1", ⟨"terminal_run", "run tests", "npm test", 0⟩)], []⟩).1,
         .error invalidRequestMsg) := by
  exact (grantApproval_at_most_once
    ⟨[("req_1", ⟨"terminal_run", "run tests", "npm test", 0⟩)], []⟩ "req_1"
    ⟨"terminal_run", "run tests", "npm test", 0⟩ "tok_1" 5000 rfl).2.2.2 "tok_2" 7000

/-- Claim C9 counterexample: a successful `grantApproval` returns exactly
`status` and `approval_token` — there is no `expires_in` field in the
returned object. -/
theorem grantApproval_result_lacks_expires_in :
    ((grantApproval "req_1" "tok_9" 100000
        ⟨[("req_1", ⟨"terminal_run", "run tests", "npm test", 0⟩)], []⟩).2
      = .ok [("status", JValue.str "granted"), ("approval_token", JValue.str "tok_9")])
    ∧ lookupA [("status", JValue.str "granted"), ("approval_token", JValue.str "tok_9")]
        "expires_in" = none := ⟨rfl, rfl⟩

/-- Claim C9 as amended: a successful grant returns status "granted" and
the approval token, with no `expires_in` field; the 60-second validity
window is recorded only in the expiry timestamp of the minted token. -/
theorem grantApproval_success_response (s : RegState) (rid : String)
    (p : PendingApproval) (tok : String) (now : Nat)
    (hfind : lookupA s.pendingApprovals rid = some p) :
    (grantApproval rid tok now s).2
        = .ok [("status", .str "granted"), ("approval_token", .str tok)]
    ∧ lookupA [("status", JValue.str "granted"), ("approval_token", JValue.str tok)]
        "expires_in" = none
    ∧ (lookupA (grantApproval rid tok now s).1.activeTokens tok).map ActiveToken.expires
        = some (now + 60 * 1000) := by
  refine ⟨?_, rfl, ?_⟩
  · simp [grantApproval, hfind]
  · simp [grantApproval, hfind, lookupA_insertA_self]

/-- Witness for the amended C9 at a concrete grant. -/
theorem grantApproval_success_response_witness :
    (grantApproval "req_1" "tok_9" 100000
        ⟨[("req_1", ⟨"terminal_run", "run tests", "npm test", 0⟩)], []⟩).2
      = .ok [("status", .str "granted"), ("approval_token", .str "tok_9")] := by
  exact (grantApproval_success_response
    ⟨[("req_1", ⟨"terminal_run", "run tests", "npm test", 0⟩)], []⟩ "req_1"
    ⟨"terminal_run", "run tests", "npm test", 0⟩ "tok_9" 100000 rfl).1

/-! ## POSIX path primitives (Node `path` as used on the server)

Strings are processed through their character lists so that every
operation is a structural computation the kernel can evaluate. -/

def isPrefixOfList {α : Type} [DecidableEq α] : List α → List α → Bool
  | [], _ => true
  | _ :: _, [] => false
  | a :: as, b :: bs => a = b && isPrefixOfList as bs

/-- Models `String.prototype.startsWith`. -/
def startsWithStr (s pre : String) : Bool := isPrefixOfList pre.data s.data

/-- Models `String.prototype.trim` (whitespace from both ends). -/
def trimStr (s : String) : String :=
  String.mk (((s.data.dropWhile Char.isWhitespace).reverse.dropWhile Char.isWhitespace).reverse)

/-- POSIX `path.isAbsolute`. -/
def isAbs (s : String) : Bool := startsWithStr s "/"

/-- Models `String.prototype.split` on a character-class regex such as `[/\\]+`:
maximal separator runs split the string; runs at either end contribute an
empty chunk there.  `none` as accumulator means we are inside a separator
run whose chunk has already been emitted. -/
def splitRunsAux (sep : Char → Bool) : List Char → Option (List Char) → List (List Char)
  | [], some cur => [cur.reverse]
  | [], none => [[]]
  | c :: cs, some cur =>
    if sep c then cur.reverse :: splitRunsAux sep cs none
    else splitRunsAux sep cs (some (c :: cur))
  | c :: cs, none =>
    if sep c then splitRunsAux sep cs none
    else splitRunsAux sep cs (some [c])

def splitRuns (sep : Char → Bool) (l : List Char) : List (List Char) :=
  splitRunsAux sep l (some [])

/-- Models `inputPath.split(/[/\\]+/)` from `resolveWorkspacePath`. -/
def splitAnySep (s : String) : List String :=
  (splitRuns (fun c => c = '/' || c = '\\') s.data).map String.mk

/-- Splitting on `/` only — the separator POSIX path functions use. -/
def splitSlash (s : String) : List String :=
  (splitRuns (fun c => c = '/') s.data).map String.mk

/-- One step of POSIX `normalizeString` for an absolute path (`..` pops,
never escapes the root; `.` and empty segments vanish). -/
def normSegStep (acc : List String) (seg : String) : List String :=
  if seg = "" || seg = "." then acc
  else if seg = ".." then acc.dropLast
  else acc ++ [seg]

def normSegs (segs : List String) : List String := segs.foldl normSegStep []

/-- One step of POSIX `normalizeString` with `allowAboveRoot` (for
relative paths: excess `..` segments are kept). -/
def normSegRelStep (acc : List String) (seg : String) : List String :=
  if seg = "" || seg = "." then acc
  else if seg = ".." then
    if acc = [] then acc ++ [".."]
    else if acc.getLast? = some ".." then acc ++ [".."]
    else acc.dropLast
  else acc ++ [seg]

def normSegsRel (segs : List String) : List String := segs.foldl normSegRelStep []

def joinSegs : List String → String
  | [] => ""
  | [s] => s
  | s :: t :: rest => s ++ "/" ++ joinSegs (t :: rest)

/-- Rebuild an absolute path from its normalized segments. -/
def mkAbs (segs : List String) : String := "/" ++ joinSegs segs

/-- POSIX `path.resolve(base, p)` with `base` absolute (the only way the
route calls it: `resolve(WORKSPACE_ROOT_REAL, inputPath)`). -/
def resolveAbs (base p : String) : String :=
  if isAbs p then mkAbs (normSegs (splitSlash p))
  else mkAbs (normSegs (splitSlash base ++ splitSlash p))

/-- Models `String.prototype.endsWith`, via suffix of the character list. -/
def endsWithStr (s suf : String) : Bool := isPrefixOfList suf.data.reverse s.data.reverse

/-- POSIX `path.normalize`. -/
def normalizePath (p : String) : String :=
  if p = "" then "."
  else
    let hasRoot := isAbs p
    let trailing := endsWithStr p "/"
    let body0 := joinSegs (if hasRoot then normSegs (splitSlash p) else normSegsRel (splitSlash p))
    let body1 := if body0 = "" && !hasRoot then "." else body0
    let body2 := if body1 ≠ "" && trailing then body1 ++ "/" else body1
    if hasRoot then "/" ++ body2 else body2

def commonPrefixLen : List String → List String → Nat
  | a :: as, b :: bs => if a = b then commonPrefixLen as bs + 1 else 0
  | _, _ => 0

/-- POSIX `path.relative(f, t)` for absolute `f` and `t` (the route only
calls it on `WORKSPACE_ROOT_REAL` and absolute candidate paths): both
sides are resolved, the common segment prefix is dropped, each remaining
`f` segment contributes `..`, and the remaining `t` segments follow. -/
def pathRelative (f t : String) : String :=
  let fs := normSegs (splitSlash f)
  let ts := normSegs (splitSlash t)
  if fs = ts then ""
  else
    let c := commonPrefixLen fs ts
    joinSegs (List.replicate (fs.length - c) ".." ++ ts.drop c)

/-- Embeds `isOutsideWorkspace` (route.ts:48-54): the relative path from the
canonical workspace root must be non-absolute and must not be `..` or
start with `../` (after mapping backslashes to slashes). -/
def isOutsideWorkspace (root absolutePath : String) : Bool :=
  let rel := pathRelative root (normalizePath absolutePath)
  if rel = "" then false
  else if isAbs rel then true
  else
    let normalized := String.mk (rel.data.map (fun c => if c = '\\' then '/' else c))
    normalized = ".." || startsWithStr normalized "../"

/-- Embeds `toWorkspaceRelativePath` (route.ts:56-58). -/
def toWorkspaceRelativePath (root absolutePath : String) : String :=
  let r := pathRelative root absolutePath
  if r = "" then "." else r

/-! ## The path sandbox resolver (`resolveWorkspacePath`, route.ts:60-95) -/

inductive FsErr where
  | enoent
  | other (msg : String)
deriving DecidableEq

inductive ResolveError where
  | emptyPathRequired
  | parentSegment
  | absoluteInput
  | outsideWorkspace (input : String)
  | doesNotExist (input : String)
  | fsFailure (msg : String)
  | symlinkEscape (input : String)
deriving DecidableEq

/-- The `Error` messages thrown by `resolveWorkspacePath`. -/
def resolveErrorMsg : ResolveError → String
  | .emptyPathRequired => "A non-empty workspace-relative path is required."
  | .parentSegment => "Parent directory references (..) are not allowed in workspace-relative paths."
  | .absoluteInput => "Absolute paths are not allowed. Use a path relative to the workspace root instead."
  | .outsideWorkspace input => "Path \"" ++ input ++ "\" is outside the workspace root."
  | .doesNotExist input => "Path \"" ++ input ++ "\" does not exist inside the workspace."
  | .fsFailure msg => msg
  | .symlinkEscape input => "Path \"" ++ input ++ "\" resolves outside the workspace root (possible symlink escape)."

/-- The PathViolation conditions of the error taxonomy (escape attempts;
`NotFound` and filesystem failures are not violations). -/
def isPathViolationError : ResolveError → Bool
  | .parentSegment => true
  | .absoluteInput => true
  | .outsideWorkspace _ => true
  | .symlinkEscape _ => true
  | _ => false

/-- Embeds `resolveWorkspacePath` (route.ts:60-95).  `maybePath = none` models a
non-string argument; `realpath` is the filesystem oracle for
`realpathSync` (`.error .enoent` models an ENOENT exception).  The second
component records every path `realpathSync` was invoked on, so that
"fails before touching the filesystem" is expressible. -/
def resolveWorkspacePath (root : String) (maybePath : Option String)
    (allowDefaultRoot : Bool) (realpath : String → Except FsErr String) :
    Except ResolveError String × List String :=
  match maybePath with
  | none => if allowDefaultRoot then (.ok root, []) else (.error .emptyPathRequired, [])
  | some s =>
    if trimStr s = "" then
      if allowDefaultRoot then (.ok root, []) else (.error .emptyPathRequired, [])
    else
      let inputPath := trimStr s
      if inputPath = "." || inputPath = "./" || inputPath = ".\\" then
        if allowDefaultRoot then (.ok root, []) else (.error .emptyPathRequired, [])
      else
        let segments := splitAnySep inputPath
        if ".." ∈ segments then (.error .parentSegment, [])
        else if isAbs inputPath then (.error .absoluteInput, [])
        else
          let candidate := resolveAbs root inputPath
          if isOutsideWorkspace root candidate then (.error (.outsideWorkspace inputPath), [])
          else
            match realpath candidate with
            | .error .enoent => (.error (.doesNotExist inputPath), [candidate])
            | .error (.other m) => (.error (.fsFailure m), [candidate])
            | .ok resolvedPath =>
              if isOutsideWorkspace root resolvedPath then
                (.error (.symlinkEscape inputPath), [candidate])
              else (.ok resolvedPath, [candidate])

/-- Claim C5: an input whose trimmed form contains a `..` path segment, or
is absolute, is rejected with a PathViolation error and the filesystem is
never touched (no `realpathSync` call is recorded). -/
theorem resolveWorkspacePath_rejects_parent_and_absolute
    (root : String) (realpath : String → Except FsErr String)
    (s : String) (adr : Bool)
    (h : ".." ∈ splitAnySep (trimStr s) ∨ isAbs (trimStr s) = true) :
    ∃ e, resolveWorkspacePath root (some s) adr realpath = (.error e, [])
      ∧ (e = .parentSegment ∨ e = .absoluteInput)
      ∧ isPathViolationError e = true := by
  by_cases htrim : trimStr s = ""
  · rw [htrim] at h
    exact absurd h (by decide)
  · by_cases hdot : trimStr s = "." || trimStr s = "./" || trimStr s = ".\\"
    · rcases Bool.or_eq_true_iff.mp hdot with hd | hd
      · rcases Bool.or_eq_true_iff.mp hd with hd1 | hd1 <;>
          [rw [decide_eq_true_iff] at hd1; rw [decide_eq_true_iff] at hd1] <;>
          rw [hd1] at h <;> exact absurd h (by decide)
      · rw [decide_eq_true_iff] at hd
        rw [hd] at h
        exact absurd h (by decide)
    · by_cases hseg : ".." ∈ splitAnySep (trimStr s)
      · refine ⟨.parentSegment, ?_, Or.inl rfl, rfl⟩
        simp [resolveWorkspacePath, htrim, hdot, hseg]
      · have habs : isAbs (trimStr s) = true := h.resolve_left hseg
        refine ⟨.absoluteInput, ?_, Or.inr rfl, rfl⟩
        simp [resolveWorkspacePath, htrim, hdot, hseg, habs]

/-- Witness for C5: a parent-reference path and an absolute path are both
rejected without any filesystem access. -/
theorem resolveWorkspacePath_rejects_witness :
    (∃ e, resolveWorkspacePath "/ws" (some "../etc/passwd") true (fun _ => .error .enoent)
        = (.error e, [])
      ∧ (e = .parentSegment ∨ e = .absoluteInput)
      ∧ isPathViolationError e = true)
    ∧ (∃ e, resolveWorkspacePath "/ws" (some "/etc/passwd") true (fun _ => .error .enoent)
        = (.error e, [])
      ∧ (e = .parentSegment ∨ e = .absoluteInput)
      ∧ isPathViolationError e = true) :=
  ⟨resolveWorkspacePath_rejects_parent_and_absolute "/ws" _ "../etc/passwd" true
      (Or.inl (by decide)),
   resolveWorkspacePath_rejects_parent_and_absolute "/ws" _ "/etc/passwd" true
      (Or.inr (by decide))⟩

/-! ## Canonical absolute paths

`realpathSync` returns canonical absolute paths: a leading `/`, no
empty/`.`/`..` segments, no internal `/` inside a segment, no trailing
slash.  `CanonicalAbs p segs` says `p` is the canonical absolute path
with segment list `segs`. -/

def validSeg (s : String) : Bool :=
  s ≠ "" && s ≠ "." && s ≠ ".." && !(s.data.any (fun c => c = '/'))

def CanonicalAbs (p : String) (segs : List String) : Prop :=
  p = mkAbs segs ∧ ∀ x ∈ segs, validSeg x = true

theorem validSeg_data_ne (a : String) (h : validSeg a = true) : a.data ≠ [] := by
  intro hd
  have : a = "" := by
    cases a with
    | mk l => cases hd; rfl
  rw [this] at h
  exact absurd h (by decide)

theorem validSeg_no_slash (a : String) (h : validSeg a = true) :
    ∀ c ∈ a.data, (c = '/') = False := by
  intro c hc
  simp [validSeg] at h
  exact eq_false (h.2 c hc)

theorem splitRunsAux_cons_sep (sep : Char → Bool) (c : Char) (l cur : List Char)
    (h : sep c = true) :
    splitRunsAux sep (c :: l) (some cur) = cur.reverse :: splitRunsAux sep l none := by
  simp [splitRunsAux, h]

theorem splitRunsAux_cons_notsep (sep : Char → Bool) (c : Char) (l cur : List Char)
    (h : sep c = false) :
    splitRunsAux sep (c :: l) (some cur) = splitRunsAux sep l (some (c :: cur)) := by
  simp [splitRunsAux, h]

theorem splitRunsAux_cons_none_notsep (sep : Char → Bool) (c : Char) (l : List Char)
    (h : sep c = false) :
    splitRunsAux sep (c :: l) none = splitRunsAux sep l (some [c]) := by
  simp [splitRunsAux, h]

theorem splitRunsAux_chunk (sep : Char → Bool) (a : List Char)
    (ha : ∀ c ∈ a, sep c = false) : ∀ (l cur : List Char),
    splitRunsAux sep (a ++ l) (some cur) = splitRunsAux sep l (some (a.reverse ++ cur)) := by
  induction a with
  | nil => intro l cur; simp
  | cons c cs ih =>
    intro l cur
    have hc : sep c = false := ha c (List.mem_cons_self _ _)
    have hcs : ∀ x ∈ cs, sep x = false := fun x hx => ha x (List.mem_cons_of_mem _ hx)
    rw [List.cons_append, splitRunsAux_cons_notsep sep c (cs ++ l) cur hc, ih hcs l (c :: cur)]
    simp

theorem splitRunsAux_chunk_none (sep : Char → Bool) (a : List Char) (l : List Char)
    (hne : a ≠ []) (ha : ∀ c ∈ a, sep c = false) :
    splitRunsAux sep (a ++ l) none = splitRunsAux sep l (some a.reverse) := by
  cases a with
  | nil => exact absurd rfl hne
  | cons c cs =>
    have hc : sep c = false := ha c (List.mem_cons_self _ _)
    have hcs : ∀ x ∈ cs, sep x = false := fun x hx => ha x (List.mem_cons_of_mem _ hx)
    rw [List.cons_append, splitRunsAux_cons_none_notsep sep c (cs ++ l) hc,
      splitRunsAux_chunk sep cs hcs l [c]]
    simp

theorem joinSegs_cons_cons (a b : String) (t : List String) :
    joinSegs (a :: b :: t) = a ++ "/" ++ joinSegs (b :: t) := rfl

/-- Splitting the character data of `joinSegs (a :: t)` on `/`, starting
outside any chunk, recovers exactly the segment data. -/
theorem splitRunsAux_join (a : String) (t : List String)
    (ha : validSeg a = true) (ht : ∀ x ∈ t, validSeg x = true) :
    splitRunsAux (fun c => c = '/') (joinSegs (a :: t)).data none
      = (a :: t).map String.data := by
  induction t generalizing a with
  | nil =>
    have h1 : joinSegs [a] = a := rfl
    rw [h1]
    have h2 : a.data = a.data ++ [] := by simp
    rw [h2, splitRunsAux_chunk_none _ _ _ (validSeg_data_ne a ha)
      (by intro c hc; simpa using (validSeg_no_slash a ha c hc))]
    simp [splitRunsAux]
  | cons b t2 ih =>
    rw [joinSegs_cons_cons]
    have hd : (a ++ "/" ++ joinSegs (b :: t2)).data
        = a.data ++ '/' :: (joinSegs (b :: t2)).data := by
      simp [String.data_append]
    rw [hd, splitRunsAux_chunk_none _ _ _ (validSeg_data_ne a ha)
      (by intro c hc; simpa using (validSeg_no_slash a ha c hc))]
    rw [splitRunsAux_cons_sep _ '/' _ _ (by simp)]
    have hb : validSeg b = true := ht b (List.mem_cons_self _ _)
    have ht2 : ∀ x ∈ t2, validSeg x = true := fun x hx => ht x (List.mem_cons_of_mem _ hx)
    rw [ih b hb ht2]
    simp

theorem splitSlash_mkAbs_cons (a : String) (t : List String)
    (ha : validSeg a = true) (ht : ∀ x ∈ t, validSeg x = true) :
    splitSlash (mkAbs (a :: t)) = "" :: a :: t := by
  have hd : (mkAbs (a :: t)).data = '/' :: (joinSegs (a :: t)).data := by
    simp [mkAbs, String.data_append]
  simp only [splitSlash, splitRuns, hd]
  rw [splitRunsAux_cons_sep _ '/' _ _ (by simp)]
  rw [splitRunsAux_join a t ha ht]
  have hid : (String.mk ∘ String.data) = id := funext fun x => rfl
  simp [hid]

theorem foldl_normSegStep_valid (t : List String) :
    ∀ (acc : List String), (∀ x ∈ t, validSeg x = true) →
    List.foldl normSegStep acc t = acc ++ t := by
  induction t with
  | nil => intro acc _; simp
  | cons b t2 ih =>
    intro acc h
    have hb : validSeg b = true := h b (List.mem_cons_self _ _)
    have hb2 := hb
    simp [validSeg] at hb2
    have hstep : normSegStep acc b = acc ++ [b] := by
      simp [normSegStep, hb2.1.1.1, hb2.1.1.2, hb2.1.2]
    simp only [List.foldl_cons, hstep]
    rw [ih (acc ++ [b]) (fun x hx => h x (List.mem_cons_of_mem _ hx))]
    simp

theorem normSegs_splitSlash_canonical (segs : List String)
    (h : ∀ x ∈ segs, validSeg x = true) :
    normSegs (splitSlash (mkAbs segs)) = segs := by
  cases segs with
  | nil => decide
  | cons a t =>
    rw [splitSlash_mkAbs_cons a t (h a (List.mem_cons_self _ _))
      (fun x hx => h x (List.mem_cons_of_mem _ hx))]
    have h0 : normSegStep [] "" = [] := rfl
    simp only [normSegs, List.foldl_cons, h0]
    exact foldl_normSegStep_valid (a :: t) [] h

theorem isAbs_mkAbs (segs : List String) : isAbs (mkAbs segs) = true := by
  have hd : (mkAbs segs).data = '/' :: (joinSegs segs).data := by
    simp [mkAbs, String.data_append]
  simp [isAbs, startsWithStr, hd, isPrefixOfList]

theorem strExt {s t : String} (h : s.data = t.data) : s = t := by
  cases s with
  | mk l =>
    cases t with
    | mk l2 => cases h; rfl

theorem str_ne_of_data {s : String} (h : s.data ≠ []) : s ≠ "" := by
  intro he
  rw [he] at h
  exact h rfl

theorem strAppend_assoc (a b c : String) : a ++ b ++ c = a ++ (b ++ c) :=
  strExt (by simp [String.data_append])

theorem mkAbs_ne_empty (segs : List String) : mkAbs segs ≠ "" := by
  apply str_ne_of_data
  have hd : (mkAbs segs).data = '/' :: (joinSegs segs).data := by
    simp [mkAbs, String.data_append]
  rw [hd]
  simp

/-- The last character of `joinSegs (a :: t)` is a character of one of
the (valid, slash-free) segments, hence not `/`. -/
theorem joinSegs_reverse_head (t : List String) : ∀ (a : String),
    validSeg a = true → (∀ x ∈ t, validSeg x = true) →
    ∃ c r, (joinSegs (a :: t)).data.reverse = c :: r ∧ (c = '/') = False := by
  induction t with
  | nil =>
    intro a ha _
    have h1 : joinSegs [a] = a := rfl
    rw [h1]
    cases hrev : a.data.reverse with
    | nil =>
      exfalso
      exact validSeg_data_ne a ha (by simpa using congrArg List.reverse hrev)
    | cons c r =>
      have hc : c ∈ a.data := by
        rw [← List.mem_reverse, hrev]
        exact List.mem_cons_self _ _
      exact ⟨c, r, rfl, validSeg_no_slash a ha c hc⟩
  | cons b t2 ih =>
    intro a ha ht
    have hb : validSeg b = true := ht b (List.mem_cons_self _ _)
    have ht2 : ∀ x ∈ t2, validSeg x = true := fun x hx => ht x (List.mem_cons_of_mem _ hx)
    obtain ⟨c, r, hrev, hc⟩ := ih b hb ht2
    refine ⟨c, r ++ ('/' :: a.data.reverse), ?_, hc⟩
    rw [joinSegs_cons_cons]
    have hd : (a ++ "/" ++ joinSegs (b :: t2)).data
        = a.data ++ '/' :: (joinSegs (b :: t2)).data := by
      simp [String.data_append]
    rw [hd]
    rw [List.reverse_append]
    simp [hrev]

theorem endsWithStr_mkAbs_cons (a : String) (t : List String)
    (ha : validSeg a = true) (ht : ∀ x ∈ t, validSeg x = true) :
    endsWithStr (mkAbs (a :: t)) "/" = false := by
  obtain ⟨c, r, hrev, hc⟩ := joinSegs_reverse_head t a ha ht
  have hcne : ¬ ('/' = c) := by
    intro hcc
    rw [← hcc] at hc
    simp at hc
  have hd : (mkAbs (a :: t)).data = '/' :: (joinSegs (a :: t)).data := by
    simp [mkAbs, String.data_append]
  have hr2 : (mkAbs (a :: t)).data.reverse = c :: (r ++ ['/']) := by
    rw [hd, List.reverse_cons, hrev]
    simp
  have heq : endsWithStr (mkAbs (a :: t)) "/" = isPrefixOfList ['/'] (c :: (r ++ ['/'])) := by
    rw [endsWithStr, hr2]
    rfl
  rw [heq]
  simp [isPrefixOfList, hcne]

theorem normalizePath_canonical (p : String) (segs : List String)
    (h : CanonicalAbs p segs) : normalizePath p = p := by
  obtain ⟨hp, hv⟩ := h
  subst hp
  cases segs with
  | nil => decide
  | cons a t =>
    have ha : validSeg a = true := hv a (List.mem_cons_self _ _)
    have ht : ∀ x ∈ t, validSeg x = true := fun x hx => hv x (List.mem_cons_of_mem _ hx)
    have hne : ¬ (mkAbs (a :: t) = "") := mkAbs_ne_empty _
    have habs : isAbs (mkAbs (a :: t)) = true := isAbs_mkAbs _
    have htr : endsWithStr (mkAbs (a :: t)) "/" = false := endsWithStr_mkAbs_cons a t ha ht
    have hns : normSegs (splitSlash (mkAbs (a :: t))) = a :: t :=
      normSegs_splitSlash_canonical _ hv
    have hje : ¬ (joinSegs (a :: t) = "") := by
      apply str_ne_of_data
      intro hd
      have := congrArg List.reverse hd
      obtain ⟨c, r, hrev, _⟩ := joinSegs_reverse_head t a ha ht
      rw [hrev] at this
      simp at this
    simp only [normalizePath, if_neg hne, habs, htr, hns, if_true]
    simp [hje, mkAbs]

theorem commonPrefixLen_le_left : ∀ (l1 l2 : List String), commonPrefixLen l1 l2 ≤ l1.length := by
  intro l1
  induction l1 with
  | nil => intro l2; cases l2 <;> simp [commonPrefixLen]
  | cons a as ih =>
    intro l2
    cases l2 with
    | nil => simp [commonPrefixLen]
    | cons b bs =>
      by_cases hab : a = b
      · simpa [commonPrefixLen, hab] using ih bs
      · simp [commonPrefixLen, hab]

theorem isPrefix_of_commonPrefixLen_eq : ∀ (l1 l2 : List String),
    commonPrefixLen l1 l2 = l1.length → l1 <+: l2 := by
  intro l1
  induction l1 with
  | nil => intro l2 _; exact ⟨l2, rfl⟩
  | cons a as ih =>
    intro l2 h
    cases l2 with
    | nil => simp [commonPrefixLen] at h
    | cons b bs =>
      by_cases hab : a = b
      · subst hab
        have h3 : commonPrefixLen (a :: as) (a :: bs) = commonPrefixLen as bs + 1 := by
          simp [commonPrefixLen]
        rw [h3, List.length_cons] at h
        obtain ⟨tail, htail⟩ := ih bs (by omega)
        exact ⟨tail, by rw [List.cons_append, htail]⟩
      · simp [commonPrefixLen, hab] at h

theorem pathRelative_canonical (root p : String) (rs ps : List String)
    (hr : CanonicalAbs root rs) (hp : CanonicalAbs p ps) :
    pathRelative root p
      = if rs = ps then ""
        else joinSegs (List.replicate (rs.length - commonPrefixLen rs ps) ".."
            ++ ps.drop (commonPrefixLen rs ps)) := by
  obtain ⟨hr1, hr2⟩ := hr
  obtain ⟨hp1, hp2⟩ := hp
  subst hr1
  subst hp1
  simp only [pathRelative, normSegs_splitSlash_canonical _ hr2,
    normSegs_splitSlash_canonical _ hp2]

/-- Core soundness of `isOutsideWorkspace`: a canonical absolute path
whose segments do not extend the root segments is flagged as outside. -/
theorem outside_of_not_under (root p : String) (rs ps : List String)
    (hr : CanonicalAbs root rs) (hp : CanonicalAbs p ps)
    (hnp : ¬ rs <+: ps) : isOutsideWorkspace root p = true := by
  have hnorm : normalizePath p = p := normalizePath_canonical p ps hp
  have hne : ¬ rs = ps := fun h => hnp (h ▸ List.prefix_refl rs)
  have hrel := pathRelative_canonical root p rs ps hr hp
  rw [if_neg hne] at hrel
  have hclt : commonPrefixLen rs ps < rs.length := by
    have hle := commonPrefixLen_le_left rs ps
    rcases Nat.lt_or_ge (commonPrefixLen rs ps) rs.length with h | h
    · exact h
    · exact absurd (isPrefix_of_commonPrefixLen_eq rs ps (Nat.le_antisymm hle h)) hnp
  obtain ⟨k0, hk0⟩ : ∃ k0, rs.length - commonPrefixLen rs ps = k0 + 1 :=
    ⟨rs.length - commonPrefixLen rs ps - 1, by omega⟩
  rw [hk0, List.replicate_succ, List.cons_append] at hrel
  simp only [isOutsideWorkspace, hnorm, hrel]
  cases hrest : List.replicate k0 ".." ++ ps.drop (commonPrefixLen rs ps) with
  | nil => decide
  | cons r rest2 =>
    have hdots2 : (".." : String).data = ['.', '.'] := rfl
    have hsl : ("/" : String).data = ['/'] := rfl
    have hdd : (joinSegs (".." :: r :: rest2)).data
        = '.' :: '.' :: '/' :: (joinSegs (r :: rest2)).data := by
      rw [joinSegs_cons_cons]
      simp [String.data_append, hdots2, hsl]
    have hne2 : ¬ (joinSegs (".." :: r :: rest2) = "") := by
      apply str_ne_of_data
      rw [hdd]
      simp
    have habs2 : isAbs (joinSegs (".." :: r :: rest2)) = false := by
      simp [isAbs, startsWithStr, hdd, hsl, isPrefixOfList]
    simp only [if_neg hne2, habs2, if_true, Bool.false_eq_true, if_false]
    have hmap : (joinSegs (".." :: r :: rest2)).data.map
        (fun c => if c = '\\' then '/' else c)
        = '.' :: '.' :: '/' :: ((joinSegs (r :: rest2)).data.map
            (fun c => if c = '\\' then '/' else c)) := by
      rw [hdd]
      simp
    have hstart : startsWithStr (String.mk ((joinSegs (".." :: r :: rest2)).data.map
        (fun c => if c = '\\' then '/' else c))) "../" = true := by
      have hdots3 : ("../" : String).data = ['.', '.', '/'] := rfl
      simp [startsWithStr, hmap, hdots3, isPrefixOfList]
    rw [hstart]
    simp

theorem joinSegs_ne_empty (m : String) (t : List String) (hm : validSeg m = true) :
    joinSegs (m :: t) ≠ "" := by
  apply str_ne_of_data
  intro hd
  cases t with
  | nil => exact validSeg_data_ne m hm hd
  | cons b t2 =>
    rw [joinSegs_cons_cons] at hd
    simp [String.data_append] at hd

theorem joinSegs_append (l1 l2 : List String) (h1 : l1 ≠ []) (h2 : l2 ≠ []) :
    joinSegs (l1 ++ l2) = joinSegs l1 ++ "/" ++ joinSegs l2 := by
  induction l1 with
  | nil => exact absurd rfl h1
  | cons a as ih =>
    cases as with
    | nil =>
      cases l2 with
      | nil => exact absurd rfl h2
      | cons b t => rfl
    | cons a2 t1 =>
      have ih2 := ih (by simp)
      rw [List.cons_append] at ih2
      have step : (a :: a2 :: t1) ++ l2 = a :: a2 :: (t1 ++ l2) := rfl
      rw [step, joinSegs_cons_cons, ih2, joinSegs_cons_cons a a2 t1]
      simp [strAppend_assoc]

/-- A canonical path extending the root segments is the root itself or
sits strictly under `root ++ "/"`. -/
theorem under_of_extends (root p : String) (rs ps : List String)
    (hr : CanonicalAbs root rs) (hp : CanonicalAbs p ps) (hne : rs ≠ [])
    (hpre : rs <+: ps) :
    p = root ∨ ∃ rest, rest ≠ "" ∧ p = root ++ "/" ++ rest := by
  obtain ⟨hr1, _⟩ := hr
  obtain ⟨hp1, hp2⟩ := hp
  obtain ⟨more, hmore⟩ := hpre
  cases more with
  | nil =>
    left
    rw [hp1, hr1, ← hmore]
    simp
  | cons m t =>
    right
    have hm : validSeg m = true := by
      apply hp2
      rw [← hmore]
      exact List.mem_append_right rs (List.mem_cons_self _ _)
    refine ⟨joinSegs (m :: t), joinSegs_ne_empty m t hm, ?_⟩
    rw [hp1, hr1, ← hmore]
    simp only [mkAbs]
    rw [joinSegs_append rs (m :: t) hne (by simp)]
    simp [strAppend_assoc]

/-- Claim C6: with a canonical workspace root (not the filesystem root)
and a `realpathSync` oracle that returns canonical absolute paths, (1)
every path `resolveWorkspacePath` returns is the canonicalized workspace
root or lies strictly under it, and (2) an input that passes every
pre-canonicalization check but whose canonicalized form lies outside the
root (its segments do not extend those of the root) fails with the
symlink-escape PathViolation error instead of returning a path. -/
theorem resolveWorkspacePath_confined
    (root : String) (rsegs : List String) (maybePath : Option String) (adr : Bool)
    (realpath : String → Except FsErr String)
    (hroot : CanonicalAbs root rsegs) (hne : rsegs ≠ [])
    (hfs : ∀ q r2, realpath q = .ok r2 → ∃ ss, CanonicalAbs r2 ss) :
    (∀ p calls, resolveWorkspacePath root maybePath adr realpath = (.ok p, calls) →
       p = root ∨ ∃ rest, rest ≠ "" ∧ p = root ++ "/" ++ rest)
    ∧ (∀ s p2 ps2, maybePath = some s →
        trimStr s ≠ "" →
        (trimStr s = "." || trimStr s = "./" || trimStr s = ".\\") = false →
        ".." ∉ splitAnySep (trimStr s) →
        isAbs (trimStr s) = false →
        isOutsideWorkspace root (resolveAbs root (trimStr s)) = false →
        realpath (resolveAbs root (trimStr s)) = .ok p2 →
        CanonicalAbs p2 ps2 →
        ¬ (rsegs <+: ps2) →
        resolveWorkspacePath root maybePath adr realpath
          = (.error (.symlinkEscape (trimStr s)), [resolveAbs root (trimStr s)])) := by
  constructor
  · intro p calls h
    cases maybePath with
    | none =>
      by_cases hadr : adr
      · simp [resolveWorkspacePath, hadr] at h
        exact Or.inl h.1.symm
      · simp [resolveWorkspacePath, hadr] at h
    | some s =>
      by_cases htrim : trimStr s = ""
      · by_cases hadr : adr
        · simp [resolveWorkspacePath, htrim, hadr] at h
          exact Or.inl h.1.symm
        · simp [resolveWorkspacePath, htrim, hadr] at h
      · by_cases hdot : (trimStr s = "." || trimStr s = "./" || trimStr s = ".\\") = true
        · by_cases hadr : adr
          · simp [resolveWorkspacePath, htrim, hdot, hadr] at h
            exact Or.inl h.1.symm
          · simp [resolveWorkspacePath, htrim, hdot, hadr] at h
        · rw [Bool.not_eq_true] at hdot
          by_cases hseg : ".." ∈ splitAnySep (trimStr s)
          · simp [resolveWorkspacePath, htrim, hdot, hseg] at h
          · by_cases habs : isAbs (trimStr s) = true
            · simp [resolveWorkspacePath, htrim, hdot, hseg, habs] at h
            · rw [Bool.not_eq_true] at habs
              by_cases hout : isOutsideWorkspace root (resolveAbs root (trimStr s)) = true
              · simp [resolveWorkspacePath, htrim, hdot, hseg, habs, hout] at h
              · rw [Bool.not_eq_true] at hout
                cases hrp : realpath (resolveAbs root (trimStr s)) with
                | error e =>
                  cases e with
                  | enoent => simp [resolveWorkspacePath, htrim, hdot, hseg, habs, hout, hrp] at h
                  | other m => simp [resolveWorkspacePath, htrim, hdot, hseg, habs, hout, hrp] at h
                | ok p2 =>
                  by_cases hout2 : isOutsideWorkspace root p2 = true
                  · simp [resolveWorkspacePath, htrim, hdot, hseg, habs, hout, hrp, hout2] at h
                  · rw [Bool.not_eq_true] at hout2
                    simp [resolveWorkspacePath, htrim, hdot, hseg, habs, hout, hrp, hout2] at h
                    obtain ⟨ss, hcan⟩ := hfs _ _ hrp
                    have hpre : rsegs <+: ss := by
                      by_contra hnp
                      rw [outside_of_not_under root p2 rsegs ss hroot hcan hnp] at hout2
                      exact absurd hout2 (by simp)
                    rw [← h.1]
                    exact under_of_extends root p2 rsegs ss hroot hcan hne hpre
  · intro s p2 ps2 hms htrim hdot hseg habs hout hrp hcan hnp
    subst hms
    simp [resolveWorkspacePath, htrim, hdot, hseg, habs, hout, hrp,
      outside_of_not_under root p2 rsegs ps2 hroot hcan hnp]

/-- Witness for C6: under root `/ws`, reading `a` (canonicalized to
`/ws/a`) yields a path under the root, while a symlink `link` whose
canonical target is `/etc` fails with the symlink-escape error. -/
theorem resolveWorkspacePath_confined_witness :
    ("/ws/a" = "/ws" ∨ ∃ rest, rest ≠ "" ∧ "/ws/a" = "/ws" ++ "/" ++ rest)
    ∧ resolveWorkspacePath "/ws" (some "link") true
        (fun q => if q = "/ws/link" then .ok "/etc" else .error .enoent)
      = (.error (.symlinkEscape "link"), ["/ws/link"]) := by
  constructor
  · refine (resolveWorkspacePath_confined "/ws" ["ws"] (some "a") true
      (fun _ => .ok "/ws/a") ⟨by decide, by decide⟩ (by decide) ?_).1 "/ws/a" ["/ws/a"] ?_
    · intro q r2 h
      have hr2 : r2 = "/ws/a" := by
        injection h with h2
        exact h2.symm
      exact ⟨["ws", "a"], by rw [hr2]; exact ⟨by decide, by decide⟩⟩
    · rfl
  · refine (resolveWorkspacePath_confined "/ws" ["ws"] (some "link") true
      (fun q => if q = "/ws/link" then .ok "/etc" else .error .enoent)
      ⟨by decide, by decide⟩ (by decide) ?_).2 "link" "/etc" ["etc"] rfl
      (by decide) (by decide) (by decide) (by decide) (by decide) ?_ ⟨by decide, by decide⟩ ?_
    · intro q r2 h
      dsimp only at h
      by_cases hq : q = "/ws/link"
      · rw [if_pos hq] at h
        have hr2 : r2 = "/etc" := by
          injection h with h2
          exact h2.symm
        exact ⟨["etc"], by rw [hr2]; exact ⟨by decide, by decide⟩⟩
      · rw [if_neg hq] at h
        cases h
    · rfl
    · intro hp
      obtain ⟨tl, htl⟩ := hp
      simp at htl

/-! ## Workspace inspector (`buildDirectoryTree`, `workspaceList`,
`workspaceRead`, `gitStatus`, `gitDiff` from mcp-tools.ts)

The filesystem visible to `readdirSync`/`statSync` is modelled as a tree
value; `denied` stands for a directory whose `readdirSync` throws (the
code catches and yields an empty listing). -/

inductive FsEntry where
  | file (size : Nat)
  | dir (entries : List (String × FsEntry))
  | denied

inductive FileNode where
  | file (name : String) (size : Nat)
  | dir (name : String) (children : List FileNode)

mutual

/-- Embeds `buildDirectoryTree` (mcp-tools.ts:37-67): empty once `currentDepth`
reaches `depth`; skips dotfiles and `node_modules`; recurses one level
deeper into directories; a `readdirSync` failure yields `[]`. -/
def buildDirectoryTree (e : FsEntry) (depth : Int) (currentDepth : Int) : List FileNode :=
  if currentDepth ≥ depth then []
  else
    match e with
    | .file _ => []
    | .denied => []
    | .dir entries => buildEntries entries depth currentDepth

def buildEntries (l : List (String × FsEntry)) (depth : Int) (currentDepth : Int) :
    List FileNode :=
  match l with
  | [] => []
  | (item, child) :: rest =>
    if startsWithStr item "." || item = "node_modules" then
      buildEntries rest depth currentDepth
    else
      (match child with
       | .file sz => FileNode.file item sz
       | .dir es => FileNode.dir item (buildDirectoryTree (.dir es) depth (currentDepth + 1))
       | .denied => FileNode.dir item (buildDirectoryTree .denied depth (currentDepth + 1)))
      :: buildEntries rest depth currentDepth

end

/-- Embeds `workspaceList(path, depth = 2)`: it delegates to `buildDirectoryTree`
with `currentDepth = 0`. -/
def workspaceList (tree : FsEntry) (depth : Int) : List FileNode :=
  buildDirectoryTree tree depth 0

/-- Embeds `workspaceRead` (mcp-tools.ts:76-81): missing file throws
`File not found`. -/
def workspaceRead (readFile : String → Option String) (path : String) :
    Except String String :=
  match readFile path with
  | none => .error ("File not found: " ++ path)
  | some content => .ok content

/-- Embeds `gitStatus` (mcp-tools.ts:144-154); `exec` is the `execSync` oracle. -/
def gitStatus (exec : String → String → Except String String) (cwd : String) : String :=
  match exec "git status --porcelain" cwd with
  | .ok result => if result = "" then "Clean working directory" else result
  | .error e => "Error: " ++ e

/-- Embeds `gitDiff` (mcp-tools.ts:156-166). -/
def gitDiff (exec : String → String → Except String String) (cwd : String) : String :=
  match exec "git diff" cwd with
  | .ok result => if result = "" then "No uncommitted changes" else result
  | .error e => "Error: " ++ e

mutual

def fileNodeToJ : FileNode → JValue
  | .file name size =>
    .obj [("name", .str name), ("type", .str "file"), ("size", .num (Int.ofNat size))]
  | .dir name children =>
    .obj [("name", .str name), ("type", .str "directory"),
          ("children", .arr (fileNodesToJ children))]

def fileNodesToJ : List FileNode → List JValue
  | [] => []
  | n :: rest => fileNodeToJ n :: fileNodesToJ rest

end

/-! ## Tool dispatcher (`handleToolCall`, route.ts:206-275) -/

structure ToolArgs where
  path : Option String
  depth : Option Int
  command : Option String
  reason : Option String
  cwd : Option String
deriving DecidableEq

structure ToolCall where
  name : String
  args : ToolArgs
deriving DecidableEq

structure Component where
  type : String
  props : List (String × JValue)

/-- Request-scoped world state: the shared approval registry plus the
counter standing in for `crypto.randomBytes` request-id freshness. -/
structure World where
  reg : RegState
  nextId : Nat

def MAX_TOOL_STEPS : Nat := 6
def MAX_FILE_CHARS_FOR_MODEL : Nat := 20000
def MAX_RESPONSE_CHARS : Nat := 30000
def MODEL_TEXT_SEPARATOR : String := "\n\n"

/-- Models `args.depth || 2`: a falsy depth (absent, or the number 0) becomes
the default 2. -/
def coerceDepth (d : Option Int) : Int :=
  match d with
  | none => 2
  | some v => if v = 0 then 2 else v

/-- Models `String.prototype.split` on a single-character class (every separator
splits, adjacent separators produce empty chunks). -/
def splitAll (sep : Char → Bool) : List Char → List (List Char)
  | [] => [[]]
  | c :: cs =>
    if sep c then [] :: splitAll sep cs
    else
      match splitAll sep cs with
      | [] => [[c]]
      | h :: t => (c :: h) :: t

/-- Models `modelPath.split(".").pop() || "text"`. -/
def extOf (p : String) : String :=
  let parts := (splitAll (fun c => c = '.') p.data).map String.mk
  match parts.getLast? with
  | none => "text"
  | some e => if e = "" then "text" else e

/-- Models `modelPath.split(/[/\\]/).pop() || modelPath`. -/
def filenameOf (p : String) : String :=
  let parts := (splitAll (fun c => c = '/' || c = '\\') p.data).map String.mk
  match parts.getLast? with
  | none => p
  | some e => if e = "" then p else e

/-- The `langMap[ext] || "plaintext"` lookup table. -/
def langOf (ext : String) : String :=
  if ext = "ts" then "typescript" else if ext = "tsx" then "typescript"
  else if ext = "js" then "javascript" else if ext = "jsx" then "javascript"
  else if ext = "py" then "python" else if ext = "json" then "json"
  else if ext = "md" then "markdown" else if ext = "css" then "css"
  else if ext = "html" then "html" else "plaintext"

def takeStr (s : String) (n : Nat) : String := String.mk (s.data.take n)

/-- The external capabilities `handleToolCall` touches: `realpathSync`,
the directory tree visible to `readdirSync`/`statSync`, file contents for
`readFileSync`/`existsSync`, and `execSync` for git. -/
structure Oracles where
  realpath : String → Except FsErr String
  fsTree : String → FsEntry
  readFile : String → Option String
  gitExec : String → String → Except String String

/-- Embeds `handleToolCall` (route.ts:206-275).  Thrown errors are caught and
turned into `{ error }` responses, mirroring the catch-all in the code. -/
def handleToolCall (o : Oracles) (root : String) (now : Nat)
    (tc : ToolCall) (w : World) : (JValue × Option Component) × World :=
  if tc.name = "list_workspace_files" then
    match resolveWorkspacePath root tc.args.path true o.realpath with
    | (.ok absolutePath, _) =>
      let modelPath := toWorkspaceRelativePath root absolutePath
      let tree := workspaceList (o.fsTree absolutePath) (coerceDepth tc.args.depth)
      ((.obj [("path", .str modelPath), ("tree", .arr (fileNodesToJ tree))],
        some ⟨"workspace_tree",
          [("tree", .arr (fileNodesToJ tree)), ("rootPath", .str modelPath)]⟩), w)
    | (.error e, _) => ((.obj [("error", .str (resolveErrorMsg e))], none), w)
  else if tc.name = "read_file" then
    match resolveWorkspacePath root tc.args.path false o.realpath with
    | (.ok absolutePath, _) =>
      let modelPath := toWorkspaceRelativePath root absolutePath
      match workspaceRead o.readFile absolutePath with
      | .error msg => ((.obj [("error", .str msg)], none), w)
      | .ok content =>
        let ext := extOf modelPath
        let wasTruncated := decide (content.length > MAX_FILE_CHARS_FOR_MODEL)
        let omittedChars := if wasTruncated then content.length - MAX_FILE_CHARS_FOR_MODEL else 0
        let modelContent := if wasTruncated then takeStr content MAX_FILE_CHARS_FOR_MODEL
          else content
        ((.obj [("path", .str modelPath), ("content", .str modelContent),
                ("truncated", .bool wasTruncated),
                ("totalChars", .num (Int.ofNat content.length)),
                ("omittedChars", .num (Int.ofNat omittedChars))],
          some ⟨"code_panel",
            [("code", .str content), ("language", .str (langOf ext)),
             ("filename", .str (filenameOf modelPath)),
             ("truncated", .bool wasTruncated),
             ("omittedChars", .num (Int.ofNat omittedChars))]⟩), w)
    | (.error e, _) => ((.obj [("error", .str (resolveErrorMsg e))], none), w)
  else if tc.name = "execute_command" then
    let reason := tc.args.reason.getD ""
    let command := tc.args.command.getD ""
    let freshId := "req_" ++ Nat.repr w.nextId
    let pr := requestApproval "terminal_run" reason command freshId now w.reg
    ((.obj (pr.2 ++ [("action", .str "terminal_run"), ("reason", .str reason),
            ("command", .str command)]),
      some ⟨"approval_card",
        [("action", .str "terminal_run"), ("reason", .str reason),
         ("command", .str command), ("request_id", .str freshId)]⟩),
     ⟨pr.1, w.nextId + 1⟩)
  else if tc.name = "get_git_status" then
    match resolveWorkspacePath root tc.args.cwd true o.realpath with
    | (.ok absoluteCwd, _) =>
      let cwd := toWorkspaceRelativePath root absoluteCwd
      ((.obj [("cwd", .str cwd), ("status", .str (gitStatus o.gitExec absoluteCwd))],
        none), w)
    | (.error e, _) => ((.obj [("error", .str (resolveErrorMsg e))], none), w)
  else if tc.name = "get_git_diff" then
    match resolveWorkspacePath root tc.args.cwd true o.realpath with
    | (.ok absoluteCwd, _) =>
      let cwd := toWorkspaceRelativePath root absoluteCwd
      ((.obj [("cwd", .str cwd), ("diff", .str (gitDiff o.gitExec absoluteCwd))],
        none), w)
    | (.error e, _) => ((.obj [("error", .str (resolveErrorMsg e))], none), w)
  else ((.obj [("error", .str ("Unknown tool: " ++ tc.name))], none), w)

/-- Claim C10: a zero-depth listing is unreachable through the
`list_workspace_files` tool.  (1) Any falsy depth argument (absent or 0)
is coerced to the default 2; (2) the behaviour of the dispatcher on a
`list_workspace_files` call with a falsy depth is identical to the same
call with depth 2; (3) `buildDirectoryTree` itself returns the empty
list whenever the current depth has reached the requested depth, so in
particular a depth-0 listing would always be empty. -/
theorem zero_depth_listing_unreachable :
    (∀ d : Option Int, (d = none ∨ d = some 0) → coerceDepth d = 2)
    ∧ (∀ (o : Oracles) (root : String) (now : Nat) (args : ToolArgs) (w : World),
        (args.depth = none ∨ args.depth = some 0) →
        handleToolCall o root now ⟨"list_workspace_files", args⟩ w
          = handleToolCall o root now
              ⟨"list_workspace_files", ⟨args.path, some 2, args.command, args.reason, args.cwd⟩⟩ w)
    ∧ (∀ (e : FsEntry) (d c : Int), d ≤ c → buildDirectoryTree e d c = [])
    ∧ (∀ e : FsEntry, workspaceList e 0 = []) := by
  have hbuild : ∀ (e : FsEntry) (d c : Int), d ≤ c → buildDirectoryTree e d c = [] := by
    intro e d c h
    unfold buildDirectoryTree
    rw [if_pos (by omega)]
  refine ⟨?_, ?_, hbuild, fun e => hbuild e 0 0 le_rfl⟩
  · rintro d (rfl | rfl) <;> rfl
  · intro o root now args w h
    have hc : coerceDepth args.depth = coerceDepth (some 2) := by
      rcases h with h2 | h2 <;> rw [h2] <;> rfl
    simp only [handleToolCall, hc]

/-- Witness for C10 at concrete inputs: depth 0 coerces to 2, and a
zero-depth `buildDirectoryTree` on a concrete directory is empty. -/
theorem zero_depth_listing_unreachable_witness :
    coerceDepth (some 0) = 2
    ∧ buildDirectoryTree (FsEntry.dir [("src", FsEntry.file 10)]) 0 0 = [] :=
  ⟨zero_depth_listing_unreachable.1 (some 0) (Or.inr rfl),
   zero_depth_listing_unreachable.2.2.1 (FsEntry.dir [("src", FsEntry.file 10)]) 0 0 le_rfl⟩

/-! ## The tool-orchestration loop (`POST`, route.ts:281-408)

The model backend is abstracted as a turn source `turns : Nat → Turn`:
`turns 0` is the first turn produced by `createChatWithFallback`, and
`turns (i + 1)` is the turn `sendToolResults` yields after the `i`-th
batch of tool results.  Quantifying over all such sources covers every
possible model behaviour. -/

structure Turn where
  text : String
  functionCalls : List ToolCall
deriving DecidableEq

inductive StopReason where
  | charLimit
  | stepLimit
deriving DecidableEq

structure LoopAcc where
  world : World
  textParts : List String
  textChars : Nat
  components : List Component
  fallbackText : String
  sawExecuteCommand : Bool
  notedModelTruncation : Bool
  stopReason : Option StopReason
  dispatched : List (List ToolCall)
  step : Nat

/-- Models the turn-text collection step of the loop: push nonempty turn text and count its characters. -/
def collectText (t : Turn) (acc : LoopAcc) : LoopAcc :=
  if t.text = "" then acc
  else { acc with
    textParts := acc.textParts ++ [t.text],
    textChars := acc.textChars + t.text.length }

/-- The fallback-text `switch` (route.ts:336-348); the three named tools
overwrite the fallback, the default case only fills an empty one. -/
def setFallback (name fallbackText : String) : String :=
  if name = "list_workspace_files" then "Here\x27s the project structure:"
  else if name = "read_file" then "Here\x27s the file:"
  else if name = "execute_command" then "This command requires your approval:"
  else if fallbackText = "" then "Here\x27s what I found:" else fallbackText

/-- Models the truncation-flag check on a tool response: a boolean `truncated` field that is true. -/
def truncatedFlag (resp : JValue) : Bool :=
  match resp with
  | .obj fields =>
    match lookupA fields "truncated" with
    | some (.bool b) => b
    | _ => false
  | _ => false

/-- The per-call body of the dispatch loop (route.ts:332-364): set the
fallback text, run `handleToolCall`, collect the component, note
`read_file` truncation, and remember an `execute_command` call. -/
def dispatchCalls (o : Oracles) (root : String) (now : Nat) :
    List ToolCall → LoopAcc → LoopAcc
  | [], acc => acc
  | call :: rest, acc =>
    let hr := handleToolCall o root now call acc.world
    dispatchCalls o root now rest
      { acc with
        world := hr.2,
        components := (match hr.1.2 with
          | some cp => acc.components ++ [cp]
          | none => acc.components),
        fallbackText := setFallback call.name acc.fallbackText,
        notedModelTruncation := acc.notedModelTruncation
          || (call.name = "read_file" && truncatedFlag hr.1.1),
        sawExecuteCommand := acc.sawExecuteCommand
          || (call.name = "execute_command") }

/-- The `while (step < MAX_TOOL_STEPS)` loop (route.ts:312-379), as
recursion on the remaining fuel `MAX_TOOL_STEPS - step`; `i` indexes the
current turn in the turn source. -/
def agentGo (o : Oracles) (root : String) (now : Nat) (turns : Nat → Turn) :
    Nat → Nat → LoopAcc → LoopAcc
  | 0, _, acc => acc
  | fuel + 1, i, acc =>
    let t := turns i
    let acc1 := collectText t acc
    if t.functionCalls = [] then acc1
    else if acc1.textChars ≥ MAX_RESPONSE_CHARS then
      { acc1 with stopReason := some .charLimit }
    else
      let acc2 := dispatchCalls o root now t.functionCalls acc1
      let acc3 := { acc2 with dispatched := acc2.dispatched ++ [t.functionCalls] }
      if acc3.sawExecuteCommand then collectText (turns (i + 1)) acc3
      else agentGo o root now turns fuel (i + 1) { acc3 with step := acc3.step + 1 }

def initAcc (w : World) : LoopAcc := ⟨w, [], 0, [], "", false, false, none, [], 0⟩

structure AgentResult where
  content : String
  components : List Component
  dispatched : List (List ToolCall)
  stopReason : Option StopReason
  notedModelTruncation : Bool
  step : Nat

def charLimitNote : String := "Note: response reached the 30000 character limit."

def stepLimitNote : String :=
  "Note: reached the maximum of 6 tool steps. Ask me to continue if something looks incomplete."

def truncationNote : String :=
  "Note: large files are truncated to 20000 characters for the AI model."

/-- Models `Array.prototype.join(sep)`. -/
def joinSep (sep2 : String) : List String → String
  | [] => ""
  | [s] => s
  | s :: t :: rest => s ++ sep2 ++ joinSep sep2 (t :: rest)

/-- route.ts:382: promote loop exhaustion to the step-limit stop reason. -/
def finalStopReason (acc : LoopAcc) : Option StopReason :=
  if acc.step ≥ MAX_TOOL_STEPS ∧ acc.stopReason = none then some .stepLimit
  else acc.stopReason

/-- route.ts:384-392: the stop-reason note is unshifted first, then the
file-truncation note is unshifted in front of it. -/
def notedParts (acc : LoopAcc) : List String :=
  let parts1 := match finalStopReason acc with
    | some .charLimit => charLimitNote :: acc.textParts
    | some .stepLimit => stepLimitNote :: acc.textParts
    | none => acc.textParts
  if acc.notedModelTruncation then truncationNote :: parts1 else parts1

/-- route.ts:394-398: filter out empty parts, join, cap, trim. -/
def textContentOf (acc : LoopAcc) : String :=
  trimStr (takeStr (joinSep MODEL_TEXT_SEPARATOR
    ((notedParts acc).filter (fun p => p ≠ ""))) MAX_RESPONSE_CHARS)

/-- route.ts:400-403: the response body. -/
def agentFinish (acc : LoopAcc) : AgentResult :=
  ⟨(if textContentOf acc ≠ "" then textContentOf acc
    else if acc.fallbackText ≠ "" then acc.fallbackText
    else "I\x27m ready to help you explore your codebase!"),
   acc.components, acc.dispatched, finalStopReason acc, acc.notedModelTruncation, acc.step⟩

/-- One request through the orchestration loop. -/
def agentRun (o : Oracles) (root : String) (now : Nat) (turns : Nat → Turn)
    (w : World) : AgentResult :=
  agentFinish (agentGo o root now turns MAX_TOOL_STEPS 0 (initAcc w))

def hasExecCall (batch : List ToolCall) : Bool :=
  batch.any (fun c => c.name = "execute_command")

theorem collectText_dispatched (t : Turn) (acc : LoopAcc) :
    (collectText t acc).dispatched = acc.dispatched := by
  unfold collectText
  split <;> rfl

theorem collectText_saw (t : Turn) (acc : LoopAcc) :
    (collectText t acc).sawExecuteCommand = acc.sawExecuteCommand := by
  unfold collectText
  split <;> rfl

theorem collectText_noted (t : Turn) (acc : LoopAcc) :
    (collectText t acc).notedModelTruncation = acc.notedModelTruncation := by
  unfold collectText
  split <;> rfl

theorem dispatchCalls_dispatched (o : Oracles) (root : String) (now : Nat) :
    ∀ (calls : List ToolCall) (acc : LoopAcc),
    (dispatchCalls o root now calls acc).dispatched = acc.dispatched := by
  intro calls
  induction calls with
  | nil => intro acc; rfl
  | cons c rest ih => intro acc; rw [dispatchCalls, ih]

theorem dispatchCalls_saw (o : Oracles) (root : String) (now : Nat) :
    ∀ (calls : List ToolCall) (acc : LoopAcc),
    (dispatchCalls o root now calls acc).sawExecuteCommand
      = (acc.sawExecuteCommand || hasExecCall calls) := by
  intro calls
  induction calls with
  | nil => intro acc; simp [dispatchCalls, hasExecCall]
  | cons c rest ih =>
    intro acc
    rw [dispatchCalls, ih]
    simp [hasExecCall, Bool.or_assoc]

theorem dispatchCalls_noted_mono (o : Oracles) (root : String) (now : Nat) :
    ∀ (calls : List ToolCall) (acc : LoopAcc),
    acc.notedModelTruncation = true →
    (dispatchCalls o root now calls acc).notedModelTruncation = true := by
  intro calls
  induction calls with
  | nil => intro acc h; exact h
  | cons c rest ih =>
    intro acc h
    rw [dispatchCalls]
    exact ih _ (by simp [h])

theorem dispatchCalls_cons_noted (o : Oracles) (root : String) (now : Nat)
    (c : ToolCall) (rest : List ToolCall) (acc : LoopAcc)
    (h : (c.name = "read_file" && truncatedFlag (handleToolCall o root now c acc.world).1.1)
      = true) :
    (dispatchCalls o root now (c :: rest) acc).notedModelTruncation = true := by
  rw [dispatchCalls]
  exact dispatchCalls_noted_mono o root now rest _ (by simp [h])

/-- Claim C7, loop-level invariant: starting from a state that has not yet
seen an `execute_command` and whose recorded batches are exec-free, any
batch containing an `execute_command` call is the final batch — the loop
dispatches nothing after it. -/
theorem agentGo_exec_is_last (o : Oracles) (root : String) (now : Nat)
    (turns : Nat → Turn) : ∀ (fuel i : Nat) (acc : LoopAcc),
    acc.sawExecuteCommand = false →
    (∀ b ∈ acc.dispatched, hasExecCall b = false) →
    ∀ j b, (agentGo o root now turns fuel i acc).dispatched.get? j = some b →
      hasExecCall b = true →
      (agentGo o root now turns fuel i acc).dispatched.length = j + 1 := by
  intro fuel
  induction fuel with
  | zero =>
    intro i acc hsaw hfree j b hj hex
    simp only [agentGo] at hj ⊢
    have hb : b ∈ acc.dispatched := List.get?_mem hj
    rw [hfree b hb] at hex
    cases hex
  | succ fuel ih =>
    intro i acc hsaw hfree j b hj hex
    simp only [agentGo] at hj ⊢
    by_cases hcalls : (turns i).functionCalls = []
    · rw [if_pos hcalls] at hj ⊢
      rw [collectText_dispatched] at hj ⊢
      have hb : b ∈ acc.dispatched := List.get?_mem hj
      rw [hfree b hb] at hex
      cases hex
    · rw [if_neg hcalls] at hj ⊢
      by_cases hchars : (collectText (turns i) acc).textChars ≥ MAX_RESPONSE_CHARS
      · rw [if_pos hchars] at hj ⊢
        simp only [collectText_dispatched] at hj ⊢
        have hb : b ∈ acc.dispatched := List.get?_mem hj
        rw [hfree b hb] at hex
        cases hex
      · rw [if_neg hchars] at hj ⊢
        have hsaw2 : (dispatchCalls o root now (turns i).functionCalls
            (collectText (turns i) acc)).sawExecuteCommand
            = hasExecCall (turns i).functionCalls := by
          rw [dispatchCalls_saw, collectText_saw, hsaw]
          simp
        by_cases hexec : hasExecCall (turns i).functionCalls = true
        · rw [if_pos (by simp [hsaw2, hexec])] at hj ⊢
          rw [collectText_dispatched] at hj ⊢
          simp only [dispatchCalls_dispatched, collectText_dispatched] at hj ⊢
          rcases Nat.lt_trichotomy j acc.dispatched.length with hlt | heq | hgt
          · exfalso
            rw [List.get?_append hlt] at hj
            have hb : b ∈ acc.dispatched := List.get?_mem hj
            rw [hfree b hb] at hex
            cases hex
          · rw [List.length_append, List.length_singleton, heq]
          · exfalso
            have hlen : j ≥ (acc.dispatched ++ [(turns i).functionCalls]).length := by
              rw [List.length_append, List.length_singleton]
              omega
            rw [List.get?_eq_none.mpr hlen] at hj
            cases hj
        · rw [if_neg (by simp [hsaw2, hexec])] at hj ⊢
          refine ih (i + 1) _ ?_ ?_ j b hj hex
          · simp [hsaw2, hexec]
          · intro b2 hb2
            simp only [dispatchCalls_dispatched, collectText_dispatched] at hb2
            rcases List.mem_append.mp hb2 with hb2 | hb2
            · exact hfree b2 hb2
            · rw [List.mem_singleton.mp hb2]
              exact Bool.not_eq_true _ ▸ hexec

/-- Claim C7: once a dispatched batch contains an `execute_command`
request, it is the last batch of the request — the loop sends the batched
results, reads at most one more turn for its text only, and performs no
further tool dispatch, whatever the following turns request. -/
theorem execute_command_stops_dispatch (o : Oracles) (root : String) (now : Nat)
    (turns : Nat → Turn) (w : World) (j : Nat) (b : List ToolCall)
    (hj : (agentRun o root now turns w).dispatched.get? j = some b)
    (hex : hasExecCall b = true) :
    (agentRun o root now turns w).dispatched.length = j + 1 := by
  have hfin : ∀ acc, (agentFinish acc).dispatched = acc.dispatched := fun _ => rfl
  rw [agentRun, hfin] at hj ⊢
  exact agentGo_exec_is_last o root now turns MAX_TOOL_STEPS 0 (initAcc w) rfl
    (by intro b2 hb2; cases hb2) j b hj hex

/-! ## Step-limit behaviour (claim C8) -/

theorem isPrefixOfList_append_self {α : Type} [DecidableEq α] :
    ∀ (a m : List α), isPrefixOfList a (a ++ m) = true := by
  intro a
  induction a with
  | nil => intro m; rfl
  | cons x xs ih => intro m; simp [isPrefixOfList, ih]

theorem isPrefixOfList_to_append {α : Type} [DecidableEq α] :
    ∀ (a l : List α), isPrefixOfList a l = true → ∃ m, l = a ++ m := by
  intro a
  induction a with
  | nil => intro l _; exact ⟨l, rfl⟩
  | cons x xs ih =>
    intro l h
    cases l with
    | nil => simp [isPrefixOfList] at h
    | cons y ys =>
      simp [isPrefixOfList] at h
      obtain ⟨m, hm⟩ := ih ys h.2
      exact ⟨m, by rw [h.1, hm]; rfl⟩

theorem isPrefixOfList_of_both {α : Type} [DecidableEq α] :
    ∀ (a b l : List α), isPrefixOfList a l = true → isPrefixOfList b l = true →
    a.length ≤ b.length → isPrefixOfList a b = true := by
  intro a
  induction a with
  | nil => intro b l _ _ _; rfl
  | cons x xs ih =>
    intro b l h1 h2 hlen
    cases l with
    | nil => simp [isPrefixOfList] at h1
    | cons y ys =>
      cases b with
      | nil => simp at hlen
      | cons z zs =>
        simp [isPrefixOfList] at h1 h2 ⊢
        refine ⟨h1.1.trans h2.1.symm, ih zs ys h1.2 h2.2 ?_⟩
        simpa using hlen

theorem dropWhile_append_cons (p : Char → Bool) :
    ∀ (l1 : List Char) (c : Char) (l2 : List Char), p c = false →
    List.dropWhile p (l1 ++ c :: l2) = List.dropWhile p l1 ++ c :: l2 := by
  intro l1
  induction l1 with
  | nil =>
    intro c l2 hc
    simp [List.dropWhile_cons, hc]
  | cons d ds ih =>
    intro c l2 hc
    by_cases hd : p d = true
    · rw [List.cons_append, List.dropWhile_cons, if_pos hd, ih c l2 hc,
        List.dropWhile_cons, if_pos hd]
    · rw [Bool.not_eq_true] at hd
      rw [List.cons_append, List.dropWhile_cons, if_neg (by simp [hd]),
        List.dropWhile_cons, if_neg (by simp [hd]), List.cons_append]

/-- Trimming `pre ++ m` keeps `pre` in front when `pre` starts and ends
with non-whitespace. -/
theorem trimStr_append_of_ends (pre m : List Char) (c0 : Char) (r0 : List Char)
    (cL : Char) (rL : List Char)
    (hh : pre = c0 :: r0) (hw0 : Char.isWhitespace c0 = false)
    (hrev : pre.reverse = cL :: rL) (hwL : Char.isWhitespace cL = false) :
    (trimStr (String.mk (pre ++ m))).data
      = pre ++ (List.dropWhile Char.isWhitespace m.reverse).reverse := by
  have hstep1 : List.dropWhile Char.isWhitespace (pre ++ m) = pre ++ m := by
    rw [hh, List.cons_append, List.dropWhile_cons, if_neg (by simp [hw0])]
  have hstep2 : (pre ++ m).reverse = m.reverse ++ cL :: rL := by
    rw [List.reverse_append, hrev]
  have hstep3 : List.dropWhile Char.isWhitespace (m.reverse ++ cL :: rL)
      = List.dropWhile Char.isWhitespace m.reverse ++ cL :: rL :=
    dropWhile_append_cons _ _ _ _ hwL
  have hdata : (trimStr (String.mk (pre ++ m))).data
      = ((List.dropWhile Char.isWhitespace ((pre ++ m)).reverse)).reverse := by
    simp only [trimStr, hstep1]
  rw [hdata, hstep2, hstep3, List.reverse_append, List.reverse_cons]
  have hback : (cL :: rL).reverse = pre := by
    have := congrArg List.reverse hrev
    simpa using this.symm
  rw [← List.reverse_cons, hback]

theorem joinSep_cons_head (sep2 : String) (a : String) (rest : List String) :
    ∃ tail : String, joinSep sep2 (a :: rest) = a ++ tail := by
  cases rest with
  | nil => exact ⟨"", by apply strExt; simp [joinSep, String.data_append]⟩
  | cons b r2 => exact ⟨sep2 ++ joinSep sep2 (b :: r2), by simp [joinSep, strAppend_assoc]⟩

/-- If the joined, filtered parts start with `pre2` (of reasonable
length, trimmed-stable), the final `textContent` starts with `pre2` and
is nonempty. -/
theorem textContent_starts (acc : LoopAcc) (pre2 : String) (tail : String)
    (hj : joinSep MODEL_TEXT_SEPARATOR ((notedParts acc).filter (fun p => p ≠ ""))
      = pre2 ++ tail)
    (hlen : pre2.data.length ≤ MAX_RESPONSE_CHARS)
    (hh : ∃ c r, pre2.data = c :: r ∧ Char.isWhitespace c = false)
    (hl : ∃ c r, pre2.data.reverse = c :: r ∧ Char.isWhitespace c = false) :
    startsWithStr (textContentOf acc) pre2 = true ∧ textContentOf acc ≠ "" := by
  obtain ⟨c0, r0, hh1, hh2⟩ := hh
  obtain ⟨cL, rL, hl1, hl2⟩ := hl
  have htake : (takeStr (joinSep MODEL_TEXT_SEPARATOR
      ((notedParts acc).filter (fun p => p ≠ ""))) MAX_RESPONSE_CHARS).data
      = pre2.data ++ (tail.data.take (MAX_RESPONSE_CHARS - pre2.data.length)) := by
    have : (takeStr (pre2 ++ tail) MAX_RESPONSE_CHARS).data
        = (pre2.data ++ tail.data).take MAX_RESPONSE_CHARS := by
      simp [takeStr, String.data_append]
    rw [hj, this, List.take_append_eq_append_take, List.take_of_length_le hlen]
  have htrim : (textContentOf acc).data = pre2.data
      ++ (List.dropWhile Char.isWhitespace
          ((tail.data.take (MAX_RESPONSE_CHARS - pre2.data.length)).reverse)).reverse := by
    have hmk : takeStr (joinSep MODEL_TEXT_SEPARATOR
        ((notedParts acc).filter (fun p => p ≠ ""))) MAX_RESPONSE_CHARS
        = String.mk (pre2.data ++ (tail.data.take (MAX_RESPONSE_CHARS - pre2.data.length))) := by
      apply strExt
      simpa using htake
    rw [textContentOf, hmk]
    exact trimStr_append_of_ends pre2.data _ c0 r0 cL rL hh1 hh2 hl1 hl2
  constructor
  · rw [startsWithStr, htrim]
    exact isPrefixOfList_append_self _ _
  · apply str_ne_of_data
    rw [htrim, hh1]
    simp

set_option maxRecDepth 40000 in
/-- The two notice shapes possible when the step limit fires: the
truncation note (when present) comes first, the step-limit note directly
after it. -/
theorem agentFinish_stepLimit_content (acc : LoopAcc)
    (h : finalStopReason acc = some .stepLimit) :
    (if acc.notedModelTruncation = true
     then startsWithStr (agentFinish acc).content
        (truncationNote ++ MODEL_TEXT_SEPARATOR ++ stepLimitNote)
     else startsWithStr (agentFinish acc).content stepLimitNote) = true := by
  by_cases hn : acc.notedModelTruncation = true
  · rw [if_pos hn]
    have hparts : notedParts acc = truncationNote :: stepLimitNote :: acc.textParts := by
      simp [notedParts, h, hn]
    have hfil : (notedParts acc).filter (fun p => p ≠ "")
        = truncationNote :: stepLimitNote :: (acc.textParts.filter (fun p => p ≠ "")) := by
      rw [hparts]
      rw [List.filter_cons_of_pos (by decide), List.filter_cons_of_pos (by decide)]
    obtain ⟨tail0, htail0⟩ := joinSep_cons_head MODEL_TEXT_SEPARATOR stepLimitNote
      (acc.textParts.filter (fun p => p ≠ ""))
    have hjoin : joinSep MODEL_TEXT_SEPARATOR ((notedParts acc).filter (fun p => p ≠ ""))
        = (truncationNote ++ MODEL_TEXT_SEPARATOR ++ stepLimitNote) ++ tail0 := by
      rw [hfil]
      show truncationNote ++ MODEL_TEXT_SEPARATOR
          ++ joinSep MODEL_TEXT_SEPARATOR (stepLimitNote :: acc.textParts.filter (fun p => p ≠ ""))
        = truncationNote ++ MODEL_TEXT_SEPARATOR ++ stepLimitNote ++ tail0
      rw [htail0, strAppend_assoc (truncationNote ++ MODEL_TEXT_SEPARATOR) stepLimitNote tail0]
    have hst := textContent_starts acc
      (truncationNote ++ MODEL_TEXT_SEPARATOR ++ stepLimitNote) tail0 hjoin
      (by decide)
      ⟨'N', (truncationNote ++ MODEL_TEXT_SEPARATOR ++ stepLimitNote).data.tail,
        by decide, by decide⟩
      ⟨'.', (truncationNote ++ MODEL_TEXT_SEPARATOR ++ stepLimitNote).data.reverse.tail,
        by decide, by decide⟩
    have hcontent : (agentFinish acc).content = textContentOf acc := by
      simp [agentFinish, hst.2]
    rw [hcontent]
    exact hst.1
  · rw [if_neg hn]
    rw [Bool.not_eq_true] at hn
    have hparts : notedParts acc = stepLimitNote :: acc.textParts := by
      simp [notedParts, h, hn]
    have hfil : (notedParts acc).filter (fun p => p ≠ "")
        = stepLimitNote :: (acc.textParts.filter (fun p => p ≠ "")) := by
      rw [hparts, List.filter_cons_of_pos (by decide)]
    obtain ⟨tail0, htail0⟩ := joinSep_cons_head MODEL_TEXT_SEPARATOR stepLimitNote
      (acc.textParts.filter (fun p => p ≠ ""))
    have hjoin : joinSep MODEL_TEXT_SEPARATOR ((notedParts acc).filter (fun p => p ≠ ""))
        = stepLimitNote ++ tail0 := by
      rw [hfil, htail0]
    have hst := textContent_starts acc stepLimitNote tail0 hjoin
      (by decide)
      ⟨'N', stepLimitNote.data.tail, by decide, by decide⟩
      ⟨'.', stepLimitNote.data.reverse.tail, by decide, by decide⟩
    have hcontent : (agentFinish acc).content = textContentOf acc := by
      simp [agentFinish, hst.2]
    rw [hcontent]
    exact hst.1

theorem agentGo_dispatched_le (o : Oracles) (root : String) (now : Nat)
    (turns : Nat → Turn) : ∀ (fuel i : Nat) (acc : LoopAcc),
    (agentGo o root now turns fuel i acc).dispatched.length
      ≤ acc.dispatched.length + fuel := by
  intro fuel
  induction fuel with
  | zero => intro i acc; simp [agentGo]
  | succ fuel ih =>
    intro i acc
    simp only [agentGo]
    by_cases hcalls : (turns i).functionCalls = []
    · rw [if_pos hcalls, collectText_dispatched]
      omega
    · rw [if_neg hcalls]
      by_cases hchars : (collectText (turns i) acc).textChars ≥ MAX_RESPONSE_CHARS
      · rw [if_pos hchars]
        simp only [collectText_dispatched]
        omega
      · rw [if_neg hchars]
        by_cases hsaw : (dispatchCalls o root now (turns i).functionCalls
            (collectText (turns i) acc)).sawExecuteCommand = true
        · rw [if_pos (by simp [hsaw])]
          rw [collectText_dispatched]
          simp only [dispatchCalls_dispatched, collectText_dispatched,
            List.length_append, List.length_singleton]
          omega
        · rw [if_neg (by simpa using hsaw)]
          refine le_trans (ih (i + 1) _) ?_
          simp only [dispatchCalls_dispatched, collectText_dispatched,
            List.length_append, List.length_singleton]
          omega

/-- Claim C8 as amended: the loop performs at most `MAX_TOOL_STEPS` (6)
tool-dispatch steps, and when it stops because the step bound was
exhausted the step-limit notice is prepended to the response text —
preceded only by the file-truncation notice when a truncated `read_file`
occurred, and first otherwise. -/
theorem agentLoop_bound_and_notice (o : Oracles) (root : String) (now : Nat)
    (turns : Nat → Turn) (w : World) :
    (agentRun o root now turns w).dispatched.length ≤ MAX_TOOL_STEPS
    ∧ ((agentRun o root now turns w).stopReason = some .stepLimit →
       (if (agentRun o root now turns w).notedModelTruncation = true
        then startsWithStr (agentRun o root now turns w).content
          (truncationNote ++ MODEL_TEXT_SEPARATOR ++ stepLimitNote)
        else startsWithStr (agentRun o root now turns w).content stepLimitNote) = true) := by
  constructor
  · have h := agentGo_dispatched_le o root now turns MAX_TOOL_STEPS 0 (initAcc w)
    simpa [agentRun, agentFinish, initAcc] using h
  · intro h
    exact agentFinish_stepLimit_content (agentGo o root now turns MAX_TOOL_STEPS 0 (initAcc w)) h

set_option maxRecDepth 100000 in
/-- Witness for C7: a concrete request whose first turn asks for
`execute_command` dispatches exactly that one batch, although every later
turn keeps requesting tool calls. -/
theorem execute_command_stops_dispatch_witness :
    (agentRun
      ⟨fun _ => .error .enoent, fun _ => .denied, fun _ => none, fun _ _ => .error "no git"⟩
      "/ws" 0
      (fun _ => ⟨"", [⟨"execute_command", ⟨none, none, some "npm test", some "run tests", none⟩⟩]⟩)
      ⟨⟨[], []⟩, 0⟩).dispatched.length = 0 + 1 := by
  refine execute_command_stops_dispatch _ _ _ _ _ 0
    [⟨"execute_command", ⟨none, none, some "npm test", some "run tests", none⟩⟩] ?_ (by decide)
  rfl

set_option maxRecDepth 100000 in
/-- Witness for the amended C8: a model that requests a git-status call on
every turn exhausts the 6-step budget; the response then begins with the
step-limit notice (no truncation note occurred). -/
theorem agentLoop_bound_and_notice_witness :
    (agentRun
      ⟨fun _ => .error .enoent, fun _ => .denied, fun _ => none, fun _ _ => .error "no git"⟩
      "/ws" 0 (fun _ => ⟨"hi", [⟨"get_git_status", ⟨none, none, none, none, none⟩⟩]⟩)
      ⟨⟨[], []⟩, 0⟩).dispatched.length ≤ MAX_TOOL_STEPS
    ∧ startsWithStr
        (agentRun
          ⟨fun _ => .error .enoent, fun _ => .denied, fun _ => none, fun _ _ => .error "no git"⟩
          "/ws" 0 (fun _ => ⟨"hi", [⟨"get_git_status", ⟨none, none, none, none, none⟩⟩]⟩)
          ⟨⟨[], []⟩, 0⟩).content stepLimitNote = true := by
  have h := agentLoop_bound_and_notice
    ⟨fun _ => .error .enoent, fun _ => .denied, fun _ => none, fun _ _ => .error "no git"⟩
    "/ws" 0 (fun _ => ⟨"hi", [⟨"get_git_status", ⟨none, none, none, none, none⟩⟩]⟩)
    ⟨⟨[], []⟩, 0⟩
  have hn : (agentRun
      ⟨fun _ => .error .enoent, fun _ => .denied, fun _ => none, fun _ _ => .error "no git"⟩
      "/ws" 0 (fun _ => ⟨"hi", [⟨"get_git_status", ⟨none, none, none, none, none⟩⟩]⟩)
      ⟨⟨[], []⟩, 0⟩).notedModelTruncation = false := rfl
  have h2 := h.2 rfl
  rw [hn] at h2
  simp only [Bool.false_eq_true, if_false] at h2
  exact ⟨h.1, h2⟩

theorem agentGo_noted_mono (o : Oracles) (root : String) (now : Nat)
    (turns : Nat → Turn) : ∀ (fuel i : Nat) (acc : LoopAcc),
    acc.notedModelTruncation = true →
    (agentGo o root now turns fuel i acc).notedModelTruncation = true := by
  intro fuel
  induction fuel with
  | zero => intro i acc h; simpa [agentGo] using h
  | succ fuel ih =>
    intro i acc h
    simp only [agentGo]
    by_cases hcalls : (turns i).functionCalls = []
    · rw [if_pos hcalls, collectText_noted]
      exact h
    · rw [if_neg hcalls]
      by_cases hchars : (collectText (turns i) acc).textChars ≥ MAX_RESPONSE_CHARS
      · rw [if_pos hchars]
        simpa [collectText_noted] using h
      · rw [if_neg hchars]
        have hd : (dispatchCalls o root now (turns i).functionCalls
            (collectText (turns i) acc)).notedModelTruncation = true := by
          apply dispatchCalls_noted_mono
          rw [collectText_noted]
          exact h
        by_cases hsaw : (dispatchCalls o root now (turns i).functionCalls
            (collectText (turns i) acc)).sawExecuteCommand = true
        · rw [if_pos (by simpa using hsaw), collectText_noted]
          exact hd
        · rw [if_neg (by simpa using hsaw)]
          exact ih (i + 1) _ hd

/-- If the current turn dispatches and that dispatch sets the truncation
flag, the flag survives to the end of the loop. -/
theorem agentGo_noted_of_first (o : Oracles) (root : String) (now : Nat)
    (turns : Nat → Turn) (fuel i : Nat) (acc : LoopAcc)
    (hcalls : (turns i).functionCalls ≠ [])
    (hchars : ¬ (collectText (turns i) acc).textChars ≥ MAX_RESPONSE_CHARS)
    (hnoted : (dispatchCalls o root now (turns i).functionCalls
        (collectText (turns i) acc)).notedModelTruncation = true) :
    (agentGo o root now turns (fuel + 1) i acc).notedModelTruncation = true := by
  simp only [agentGo]
  rw [if_neg hcalls, if_neg hchars]
  by_cases hsaw : (dispatchCalls o root now (turns i).functionCalls
      (collectText (turns i) acc)).sawExecuteCommand = true
  · rw [if_pos (by simpa using hsaw), collectText_noted]
    exact hnoted
  · rw [if_neg (by simpa using hsaw)]
    exact agentGo_noted_mono o root now turns fuel (i + 1) _ hnoted

/-- The oversized file for the C8 counterexample: 20001 characters, one
more than the model-facing truncation ceiling. -/
def bigContent : String := String.mk (List.replicate 20001 'a')

def oraclesCE : Oracles :=
  ⟨fun q => if q = "/ws/big.txt" then .ok "/ws/big.txt" else .error .enoent,
   fun _ => .denied,
   fun q => if q = "/ws/big.txt" then some bigContent else none,
   fun _ _ => .error "no git"⟩

def readCallCE : ToolCall := ⟨"read_file", ⟨some "big.txt", none, none, none, none⟩⟩

def turnsCE : Nat → Turn := fun _ => ⟨"", [readCallCE]⟩

set_option maxRecDepth 100000 in
/-- Claim C8 counterexample: a model that keeps asking to read a
20001-character file exhausts the 6-step budget with further calls still
pending, yet the final response text does NOT begin with the step-limit
notice — the large-file truncation notice is unshifted after it and ends
up first. -/
theorem step_limit_notice_not_first :
    (agentRun oraclesCE "/ws" 0 turnsCE ⟨⟨[], []⟩, 0⟩).stopReason = some .stepLimit
    ∧ (turnsCE 6).functionCalls ≠ []
    ∧ startsWithStr (agentRun oraclesCE "/ws" 0 turnsCE ⟨⟨[], []⟩, 0⟩).content
        stepLimitNote = false := by
  have hlen : bigContent.length = 20001 := by
    show (List.replicate 20001 'a').length = 20001
    exact List.length_replicate _ _
  have hflag1 : ∀ w2 : World,
      truncatedFlag (handleToolCall oraclesCE "/ws" 0 readCallCE w2).1.1
        = decide (bigContent.length > MAX_FILE_CHARS_FOR_MODEL) := fun _ => rfl
  have hflag2 : decide (bigContent.length > MAX_FILE_CHARS_FOR_MODEL) = true := by
    rw [hlen]
    rfl
  have hflag : ∀ w2 : World,
      truncatedFlag (handleToolCall oraclesCE "/ws" 0 readCallCE w2).1.1 = true :=
    fun w2 => (hflag1 w2).trans hflag2
  have hd1 : ∀ (acc : LoopAcc),
      (dispatchCalls oraclesCE "/ws" 0 [readCallCE] acc).notedModelTruncation = true := by
    intro acc
    apply dispatchCalls_cons_noted
    rw [hflag acc.world]
    rfl
  have hnoted : (agentGo oraclesCE "/ws" 0 turnsCE MAX_TOOL_STEPS 0
      (initAcc ⟨⟨[], []⟩, 0⟩)).notedModelTruncation = true := by
    apply agentGo_noted_of_first
    · intro hh
      cases hh
    · intro hh
      simp [collectText, turnsCE, initAcc, MAX_RESPONSE_CHARS] at hh
    · exact hd1 _
  have hstop : finalStopReason (agentGo oraclesCE "/ws" 0 turnsCE MAX_TOOL_STEPS 0
      (initAcc ⟨⟨[], []⟩, 0⟩)) = some .stepLimit := rfl
  refine ⟨rfl, by decide, ?_⟩
  have hcontent := agentFinish_stepLimit_content
    (agentGo oraclesCE "/ws" 0 turnsCE MAX_TOOL_STEPS 0 (initAcc ⟨⟨[], []⟩, 0⟩)) hstop
  rw [if_pos hnoted] at hcontent
  show startsWithStr (agentFinish (agentGo oraclesCE "/ws" 0 turnsCE MAX_TOOL_STEPS 0
      (initAcc ⟨⟨[], []⟩, 0⟩))).content stepLimitNote = false
  cases hb : startsWithStr (agentFinish (agentGo oraclesCE "/ws" 0 turnsCE MAX_TOOL_STEPS 0
      (initAcc ⟨⟨[], []⟩, 0⟩))).content stepLimitNote with
  | false => rfl
  | true =>
    exfalso
    have hboth := isPrefixOfList_of_both stepLimitNote.data
      (truncationNote ++ MODEL_TEXT_SEPARATOR ++ stepLimitNote).data
      (agentFinish (agentGo oraclesCE "/ws" 0 turnsCE MAX_TOOL_STEPS 0
        (initAcc ⟨⟨[], []⟩, 0⟩))).content.data hb hcontent (by decide)
    exact absurd hboth (by decide)

end VibeControl
